import Mathlib

/-!
Shallow embedding of `main.py` of the `train_routes` repository: a directed,
weighted station graph (`StationMap` / `Station`) and the modified Dijkstra
search `find_shortest_route`, together with proofs of the specification claims.

Modelling conventions:
* Python `dict`s are insertion-ordered association lists; `Station` objects are
  uniquely owned by the map, so object identity coincides with the station name
  and `Station.routes : dict[Station, int]` is keyed here by destination name.
* `math.inf` distances are `Option Int` with `none` standing for infinity.
* `heapq` is modelled by its contract: `popMin` removes an entry whose key is
  minimal (no other entry compares strictly smaller), which is exactly what
  `heappop` guarantees given that `Station.__gt__` always returns `False`.
* Raised exceptions become explicit outcome values; the unbounded `while` loop
  and the `_count_stops` walk take a fuel argument, and `stuck` marks fuel
  exhaustion or a failing dict lookup — both are proved unreachable below.
-/

namespace TrainRoutes

/-- A train station (`class Station`): its name and its outgoing routes,
an insertion-ordered association list from destination station name to
distance (`self.routes : dict[Station, int]`). -/
structure Station where
  name : String
  routes : List (String × Int)
deriving DecidableEq, Repr

/-- `StationMap` (`self.stations : dict[str, Station]`) as an insertion-ordered
list of stations; the dict key is the station's `name` field. -/
structure StationMap where
  stations : List Station
deriving DecidableEq, Repr

/-- `StationMap()` — the empty map. -/
def StationMap.empty : StationMap := ⟨[]⟩

/-- `self.stations[n]` / `n in self.stations`: lookup by name. -/
def StationMap.findStation (m : StationMap) (n : String) : Option Station :=
  m.stations.find? (fun s => s.name = n)

/-- `n in self.stations`. -/
def StationMap.hasStationB (m : StationMap) (n : String) : Bool :=
  (m.findStation n).isSome

/-- `StationMap._add_station`: register the name if absent (appending, as a
Python dict insert does). -/
def StationMap.addStation (m : StationMap) (n : String) : StationMap :=
  if m.hasStationB n then m else ⟨m.stations ++ [⟨n, []⟩]⟩

/-- Weight of the edge `o → d`, i.e. `self.stations[o].routes[d]`. -/
def StationMap.edgeWeight (m : StationMap) (o d : String) : Option Int :=
  (m.findStation o).bind (fun s => (s.routes.find? (fun p => p.1 = d)).map Prod.snd)

/-- `d in self.stations[o].routes` — the duplicate-edge test of
`Station.add_route`. -/
def StationMap.hasRouteB (m : StationMap) (o d : String) : Bool :=
  (m.edgeWeight o d).isSome

/-- `StationMap.add_route`: `_add_station` both endpoints, then
`Station.add_route` on the origin.  Returns the post state together with
`some (o, d)` when `DuplicateRouteError` is raised (the two `_add_station`
calls have already mutated the map by then) and `none` on success. -/
def StationMap.addRoute (m : StationMap) (o d : String) (w : Int) :
    StationMap × Option (String × String) :=
  let m1 := (m.addStation o).addStation d
  if m1.hasRouteB o d then (m1, some (o, d))
  else
    (⟨m1.stations.map (fun s =>
        if s.name = o then ⟨s.name, s.routes ++ [(d, w)]⟩ else s)⟩, none)

/-- A station map built by a sequence of `add_route` calls from the empty map
(the loader's loop in `parse_routes`). -/
def buildMap (l : List (String × String × Int)) : StationMap :=
  l.foldl (fun m e => (m.addRoute e.1 e.2.1 e.2.2).1) StationMap.empty

/-- Well-formedness of a map, guaranteed by construction: station names are
pairwise distinct (dict keys), each station's route keys are pairwise distinct
(dict keys), and every route destination is a registered station. -/
def WF (m : StationMap) : Prop :=
  (m.stations.map Station.name).Nodup ∧
    ∀ s ∈ m.stations, (s.routes.map Prod.fst).Nodup ∧
      ∀ p ∈ s.routes, m.hasStationB p.1 = true

/-- The invariant of claim C7 alone: every route destination is registered. -/
def DestsRegistered (m : StationMap) : Prop :=
  ∀ s ∈ m.stations, ∀ p ∈ s.routes, m.hasStationB p.1 = true

/-- All edge weights are non-negative (spec §4.2 assumption). -/
def NonnegW (m : StationMap) : Prop :=
  ∀ s ∈ m.stations, ∀ p ∈ s.routes, 0 ≤ p.2

/-! ### Distances with infinity

`dist` values are Python ints or `math.inf`; `none` is infinity. -/

/-- Strict comparison `a < b` with `none` as `math.inf`
(`math.inf < math.inf` is `False` in Python). -/
def ltD : Option Int → Option Int → Bool
  | some a, some b => decide (a < b)
  | some _, none => true
  | none, _ => false

/-- `a + w` with `none` as `math.inf` (`math.inf + w == math.inf`). -/
def addD : Option Int → Int → Option Int
  | some a, w => some (a + w)
  | none, _ => none

/-- Pointwise update of a dictionary modelled as a function. -/
def upd {α : Type} (f : String → α) (x : String) (v : α) : String → α :=
  fun y => if y = x then v else f y

/-! ### The priority queue

`heapq` on pairs `(distance, station)`: `heappop` removes an entry no other
entry compares strictly smaller than (ties among equal distances are broken
arbitrarily by the heap since `Station.__gt__` is constantly `False`; this
model removes the first such entry). -/

/-- `heappop`: return a key-minimal entry and the remaining queue. -/
def popMin : List (Option Int × String) →
    Option ((Option Int × String) × List (Option Int × String))
  | [] => none
  | e :: es =>
    match popMin es with
    | none => some (e, [])
    | some (b, rest) => if ltD b.1 e.1 then some (b, e :: rest) else some (e, es)

/-! ### The Python tuple ordering used by the heap

`heapq` compares entries with `<`; on tuples this compares the distances and,
when they are equal, falls back to the stations, where `a < b` resolves to
`b.__gt__(a)`, which is constantly `False`. -/

/-- `Station.__gt__`: always `False`. -/
def stationGt : Station → Station → Bool := fun _ _ => false

/-- `a < b` on stations as Python resolves it: `b.__gt__(a)`. -/
def stationLt (a b : Station) : Bool := stationGt b a

/-- `(d1, s1) < (d2, s2)` on heap entries, as Python tuple comparison. -/
def entryLt (a b : Option Int × Station) : Bool :=
  ltD a.1 b.1 || (a.1 == b.1 && stationLt a.2 b.2)

/-! ### The search -/

/-- `StationMap._count_stops`: follow the `prev` chain backwards from the
destination until the predecessor is the origin, counting the intermediate
stations.  `none` models a `KeyError` (missing `prev` entry) or a chain longer
than the fuel — impossible in reachable states. -/
def countStops (prev : String → Option String) (origin : String) :
    Nat → String → Option Nat
  | 0, _ => none
  | fuel + 1, cur =>
    match prev cur with
    | none => none
    | some p =>
      if p = origin then some 0
      else (countStops prev origin fuel p).map (fun k => k + 1)

/-- The mutable state of `find_shortest_route`'s search:
`unvisited_stations` (the heap), `dist`, `prev` and `visited`.
`visited` is a Python `set`; it is modelled as a duplicate-free list recording
insertion order (only membership is observable). -/
structure SState where
  queue : List (Option Int × String)
  dist : String → Option Int
  prev : String → Option String
  visited : List String

/-- `current_station.routes` for the station named `n`. -/
def StationMap.routesOf (m : StationMap) (n : String) : List (String × Int) :=
  ((m.findStation n).map Station.routes).getD []

/-- The body of `for connected_station in current_station.routes` for a single
route `e` out of the just-popped station `u`: skip visited stations, otherwise
relax the edge and push on improvement. -/
def relaxStep (u : String) (st : SState) (e : String × Int) : SState :=
  if e.1 ∈ st.visited then st
  else
    let rt := addD (st.dist u) e.2
    if ltD rt (st.dist e.1) then
      { st with
        queue := st.queue ++ [(rt, e.1)]
        dist := upd st.dist e.1 rt
        prev := upd st.prev e.1 (some u) }
    else st

/-- The whole `for` loop over the routes of `u`. -/
def relaxAll (u : String) (st : SState) (routes : List (String × Int)) : SState :=
  routes.foldl (relaxStep u) st

/-- `visited.add(u)` on the list model of the set. -/
def visit (u : String) (v : List String) : List String :=
  if u ∈ v then v else v ++ [u]

/-- Observable outcome of one `find_shortest_route` call. -/
inductive QueryOutcome where
  /-- `StationDoesNotExistError(name)`. -/
  | error (name : String)
  /-- A normal return `(distance, stops)`; `distance = none` is `math.inf`
  and `stops = none` is Python `None`. -/
  | result (distance : Option Int) (stops : Option Nat)
  /-- Model artefact: fuel ran out or a dict lookup failed. -/
  | stuck
deriving DecidableEq, Repr

/-- The `while len(unvisited_stations) > 0` loop of `find_shortest_route`. -/
def searchLoop (m : StationMap) (origin dest : String) :
    Nat → SState → QueryOutcome
  | 0, _ => .stuck
  | fuel + 1, st =>
    match popMin st.queue with
    | none => .result none none
    | some (e, q') =>
      if e.2 = dest then
        match countStops st.prev origin m.stations.length e.2 with
        | some k => .result (st.dist e.2) (some k)
        | none => .stuck
      else
        searchLoop m origin dest fuel
          (let st1 := relaxAll e.2 { st with queue := q' } (m.routesOf e.2)
           { st1 with visited := visit e.2 st1.visited })

/-- `dist` after the initialisation loop: `0` for the origin, `math.inf` for
every other station (stations other than the map's keys are never looked up). -/
def initDist (origin : String) : String → Option Int :=
  fun v => if v = origin then some 0 else none

/-- The search state just before the `while` loop: the heap holds
`(0, origin)`, `visited` and `prev` are empty. -/
def initState (origin : String) : SState :=
  ⟨[(some 0, origin)], initDist origin, fun _ => none, []⟩

/-- Total number of routes in the map. -/
def StationMap.totalRoutes (m : StationMap) : Nat :=
  (m.stations.map (fun s => s.routes.length)).sum

/-- Fuel sufficient for the search loop (proved below): the loop runs at most
`1 + stations + routes` iterations. -/
def StationMap.fuelBound (m : StationMap) : Nat :=
  2 + m.stations.length + m.totalRoutes

/-- `StationMap.find_shortest_route`, with explicit loop fuel. -/
def findShortestRouteAux (m : StationMap) (o d : String) (fuel : Nat) :
    QueryOutcome :=
  if m.hasStationB o = false then .error o
  else if m.hasStationB d = false then .error d
  else if o = d then .result (some 0) (some 0)
  else searchLoop m o d fuel (initState o)

/-- `StationMap.find_shortest_route`. -/
def StationMap.findShortestRoute (m : StationMap) (o d : String) : QueryOutcome :=
  findShortestRouteAux m o d m.fuelBound

/-! ### State-threaded variant

`find_shortest_route` only ever reads `self`; to express claim C9 (the query
does not mutate the graph) the call is rendered in state-passing style, the
station map being the threaded state of the method's `self`, returned alongside
the outcome. -/

/-- The search loop with the station map threaded as explicit state. -/
def searchLoopSt (m : StationMap) (origin dest : String) :
    Nat → SState → StationMap × QueryOutcome
  | 0, _ => (m, .stuck)
  | fuel + 1, st =>
    match popMin st.queue with
    | none => (m, .result none none)
    | some (e, q') =>
      if e.2 = dest then
        match countStops st.prev origin m.stations.length e.2 with
        | some k => (m, .result (st.dist e.2) (some k))
        | none => (m, .stuck)
      else
        searchLoopSt m origin dest fuel
          (let st1 := relaxAll e.2 { st with queue := q' } (m.routesOf e.2)
           { st1 with visited := visit e.2 st1.visited })

/-- `find_shortest_route` in state-passing style. -/
def findShortestRouteSt (m : StationMap) (o d : String) :
    StationMap × QueryOutcome :=
  if m.hasStationB o = false then (m, .error o)
  else if m.hasStationB d = false then (m, .error d)
  else if o = d then (m, .result (some 0) (some 0))
  else searchLoopSt m o d m.fuelBound (initState o)

/-! ### Walks in the graph

A walk from `a` along the successive stations `xs` (the last element of
`a :: xs` is the endpoint); its cost is the sum of the edge weights. -/

/-- `isWalkB m a xs b`: `a :: xs` is a directed walk from `a` to `b`. -/
def isWalkB (m : StationMap) : String → List String → String → Bool
  | a, [], b => a == b
  | a, x :: xs, b => (m.edgeWeight a x).isSome && isWalkB m x xs b

/-- Total weight of the walk `a :: xs`. -/
def walkCost (m : StationMap) : String → List String → Int
  | _, [] => 0
  | a, x :: xs => (m.edgeWeight a x).getD 0 + walkCost m x xs

/-- The spec's worked example: edges `A→B(5)`, `B→C(5)`, `A→C(15)`. -/
def exMapC1 : StationMap := buildMap [("A", "B", 5), ("B", "C", 5), ("A", "C", 15)]

/-- A disconnected example: `A→B(5)` and `C→D(2)`; `C` is unreachable from `A`. -/
def exMapC3 : StationMap := buildMap [("A", "B", 5), ("C", "D", 2)]

instance (m : StationMap) : Decidable (WF m) := by
  unfold WF; infer_instance

instance (m : StationMap) : Decidable (DestsRegistered m) := by
  unfold DestsRegistered; infer_instance

instance (m : StationMap) : Decidable (NonnegW m) := by
  unfold NonnegW; infer_instance

/-! ### Search invariants

The proof of the search follows the classical Dijkstra argument, adapted to
this code's shape (a lazy queue with possibly stale entries, and a visited set
consulted when relaxing rather than when popping). -/

/-- Contribution of one station to the termination potential: a station still
unvisited can be popped once "for real" and can cause at most one push per
route. -/
def phiStation (V : List String) (s : Station) : Nat :=
  if s.name ∈ V then 0 else 1 + s.routes.length

/-- Termination potential of a search state: strictly decreases at every
iteration of the `while` loop. -/
def phi (m : StationMap) (st : SState) : Nat :=
  st.queue.length + (m.stations.map (phiStation st.visited)).sum

/-- One full iteration of the `while` loop body in the non-destination case:
relax the routes of the popped station `u` against the remaining queue `q'`,
then mark `u` visited. -/
def stepIter (m : StationMap) (u : String)
    (q' : List (Option Int × String)) (st : SState) : SState :=
  let st1 := relaxAll u { st with queue := q' } (m.routesOf u)
  { st1 with visited := visit u st1.visited }

/-- The loop invariant of the `while` loop of `find_shortest_route`,
for origin `o` and destination `z`. -/
structure Inv (m : StationMap) (o z : String) (st : SState) : Prop where
  /-- Every queue entry is a station with a finite key bounding its current
  tentative distance. -/
  qmem : ∀ e ∈ st.queue, m.hasStationB e.2 = true ∧
    ∃ kv dv, e.1 = some kv ∧ st.dist e.2 = some dv ∧ dv ≤ kv
  /-- Visited elements are stations. -/
  vmem : ∀ x ∈ st.visited, m.hasStationB x = true
  /-- The visited list (modelling the Python set) has no duplicates. -/
  vnodup : st.visited.Nodup
  /-- Every finite tentative distance is the cost of an actual walk. -/
  dsound : ∀ v dv, st.dist v = some dv →
    ∃ xs, isWalkB m o xs v = true ∧ walkCost m o xs = dv
  /-- The origin keeps distance 0. -/
  dorigin : st.dist o = some 0
  /-- Visited stations carry their final, minimal distance. -/
  dvisited : ∀ x ∈ st.visited, ∃ dx, st.dist x = some dx ∧
    ∀ xs, isWalkB m o xs x = true → dx ≤ walkCost m o xs
  /-- All edges out of a visited station have been relaxed. -/
  erelaxed : ∀ x ∈ st.visited, ∀ p ∈ m.routesOf x, ∃ dx dv,
    st.dist x = some dx ∧ st.dist p.1 = some dv ∧ dv ≤ dx + p.2
  /-- An unvisited station with finite tentative distance has a queue entry
  whose key is exactly that distance. -/
  qexact : ∀ v, v ∉ st.visited → ∀ dv, st.dist v = some dv →
    (some dv, v) ∈ st.queue
  /-- Each predecessor edge is consistent with the distances. -/
  psound : ∀ v x, st.prev v = some x → ∃ dx dv w, st.dist x = some dx ∧
    st.dist v = some dv ∧ m.edgeWeight x v = some w ∧ dx + w ≤ dv
  /-- Predecessors are visited. -/
  pvis : ∀ v x, st.prev v = some x → x ∈ st.visited
  /-- Predecessor links always point backwards in visiting order. -/
  pord : ∀ v x, st.prev v = some x → v ∈ st.visited →
    List.indexOf x st.visited < List.indexOf v st.visited
  /-- The origin never acquires a predecessor. -/
  porigin : st.prev o = none
  /-- Every queued station other than the origin has a predecessor. -/
  qprev : ∀ e ∈ st.queue, e.2 = o ∨ (st.prev e.2).isSome = true
  /-- Every visited station other than the origin has a predecessor. -/
  vprev : ∀ x ∈ st.visited, x = o ∨ (st.prev x).isSome = true
  /-- The destination has not been visited (its pop returns instead). -/
  znvis : z ∉ st.visited

/-- The invariant in the middle of the relaxation `for` loop: the station `u`
with (already minimal) distance `du` has been popped but not yet added to the
visited set. -/
structure MInv (m : StationMap) (o z u : String) (du : Int) (st : SState) :
    Prop where
  qmem : ∀ e ∈ st.queue, m.hasStationB e.2 = true ∧
    ∃ kv dv, e.1 = some kv ∧ st.dist e.2 = some dv ∧ dv ≤ kv
  vmem : ∀ x ∈ st.visited, m.hasStationB x = true
  vnodup : st.visited.Nodup
  dsound : ∀ v dv, st.dist v = some dv →
    ∃ xs, isWalkB m o xs v = true ∧ walkCost m o xs = dv
  dorigin : st.dist o = some 0
  dvisited : ∀ x ∈ st.visited, ∃ dx, st.dist x = some dx ∧
    ∀ xs, isWalkB m o xs x = true → dx ≤ walkCost m o xs
  erelaxed : ∀ x ∈ st.visited, ∀ p ∈ m.routesOf x, ∃ dx dv,
    st.dist x = some dx ∧ st.dist p.1 = some dv ∧ dv ≤ dx + p.2
  /-- `qexact`, except possibly for `u` itself, whose entry was just popped. -/
  qexact : ∀ v, v ∉ st.visited → v ≠ u → ∀ dv, st.dist v = some dv →
    (some dv, v) ∈ st.queue
  unvis : u ∉ st.visited
  umem : m.hasStationB u = true
  udist : st.dist u = some du
  umin : ∀ xs, isWalkB m o xs u = true → du ≤ walkCost m o xs
  psound : ∀ v x, st.prev v = some x → ∃ dx dv w, st.dist x = some dx ∧
    st.dist v = some dv ∧ m.edgeWeight x v = some w ∧ dx + w ≤ dv
  pvis : ∀ v x, st.prev v = some x → x ∈ st.visited ∨ x = u
  pvisu : ∀ x, st.prev u = some x → x ∈ st.visited
  pord : ∀ v x, st.prev v = some x → v ∈ st.visited →
    x ∈ st.visited ∧ List.indexOf x st.visited < List.indexOf v st.visited
  porigin : st.prev o = none
  qprev : ∀ e ∈ st.queue, e.2 = o ∨ (st.prev e.2).isSome = true
  vprev : ∀ x ∈ st.visited, x = o ∨ (st.prev x).isSome = true
  uprev : u = o ∨ (st.prev u).isSome = true
  znvis : z ∉ st.visited

/-! ## Theorems -/

theorem hasStationB_iff (m : StationMap) (n : String) :
    m.hasStationB n = true ↔ ∃ s ∈ m.stations, s.name = n := by
  unfold StationMap.hasStationB StationMap.findStation
  rw [Option.isSome_iff_exists]
  constructor
  · rintro ⟨s, hs⟩
    exact ⟨s, List.mem_of_find?_eq_some hs, by simpa using List.find?_some hs⟩
  · rintro ⟨s, hs, hn⟩
    have : (m.stations.find? (fun s => s.name = n)).isSome = true :=
      List.find?_isSome.mpr ⟨s, hs, by simpa using hn⟩
    exact Option.isSome_iff_exists.mp this

theorem findStation_mem {m : StationMap} {n : String} {s : Station}
    (h : m.findStation n = some s) : s ∈ m.stations ∧ s.name = n :=
  ⟨List.mem_of_find?_eq_some h, by simpa using List.find?_some h⟩

theorem hasStationB_of_findStation {m : StationMap} {n : String} {s : Station}
    (h : m.findStation n = some s) : m.hasStationB n = true := by
  unfold StationMap.hasStationB
  rw [h]
  rfl

theorem findStation_isSome {m : StationMap} {n : String}
    (h : m.hasStationB n = true) : ∃ s, m.findStation n = some s :=
  Option.isSome_iff_exists.mp h

theorem routesOf_eq {m : StationMap} {n : String} {s : Station}
    (h : m.findStation n = some s) : m.routesOf n = s.routes := by
  unfold StationMap.routesOf
  rw [h]
  rfl

theorem find?_eq_of_mem_nodup {l : List (String × Int)} {p : String × Int}
    (hnd : (l.map Prod.fst).Nodup) (hp : p ∈ l) :
    l.find? (fun q => q.1 = p.1) = some p := by
  induction l with
  | nil => cases hp
  | cons a t ih =>
    simp only [List.map_cons, List.nodup_cons] at hnd
    rcases List.mem_cons.mp hp with rfl | hpt
    · simp [List.find?_cons]
    · have hne : ¬(a.1 = p.1) := by
        intro hcontra
        exact hnd.1 (hcontra ▸ List.mem_map_of_mem Prod.fst hpt)
      have hd : (decide (a.1 = p.1)) = false := by
        simpa using hne
      rw [List.find?_cons, hd]
      exact ih hnd.2 hpt

theorem edgeWeight_of_mem {m : StationMap} {u : String} {s : Station}
    {p : String × Int} (hwf : WF m) (hs : m.findStation u = some s)
    (hp : p ∈ s.routes) : m.edgeWeight u p.1 = some p.2 := by
  have hnd : (s.routes.map Prod.fst).Nodup :=
    (hwf.2 s (findStation_mem hs).1).1
  unfold StationMap.edgeWeight
  rw [hs, Option.some_bind, find?_eq_of_mem_nodup hnd hp]
  rfl

theorem mem_of_edgeWeight {m : StationMap} {u v : String} {w : Int}
    (h : m.edgeWeight u v = some w) :
    ∃ s, m.findStation u = some s ∧ (v, w) ∈ s.routes := by
  unfold StationMap.edgeWeight at h
  cases hf : m.findStation u with
  | none => rw [hf] at h; cases h
  | some s =>
    rw [hf, Option.some_bind] at h
    cases hr : s.routes.find? (fun q => q.1 = v) with
    | none => rw [hr] at h; cases h
    | some p =>
      rw [hr] at h
      have hp1 : p.1 = v := by simpa using List.find?_some hr
      have hp2 : p.2 = w := by simpa using h
      refine ⟨s, rfl, ?_⟩
      have hmem : p ∈ s.routes := List.mem_of_find?_eq_some hr
      rwa [← hp1, ← hp2]

theorem edgeWeight_nonneg {m : StationMap} {u v : String} {w : Int}
    (hnn : NonnegW m) (h : m.edgeWeight u v = some w) : 0 ≤ w := by
  obtain ⟨s, hs, hp⟩ := mem_of_edgeWeight h
  exact hnn s (findStation_mem hs).1 (v, w) hp

theorem edgeWeight_dest_registered {m : StationMap} {u v : String} {w : Int}
    (hwf : WF m) (h : m.edgeWeight u v = some w) : m.hasStationB v = true := by
  obtain ⟨s, hs, hp⟩ := mem_of_edgeWeight h
  exact (hwf.2 s (findStation_mem hs).1).2 (v, w) hp

theorem walkCost_nonneg {m : StationMap} (hnn : NonnegW m) :
    ∀ (xs : List String) (a b : String), isWalkB m a xs b = true →
      0 ≤ walkCost m a xs := by
  intro xs
  induction xs with
  | nil => intro a b _; simp [walkCost]
  | cons x t ih =>
    intro a b h
    unfold isWalkB at h
    rw [Bool.and_eq_true] at h
    obtain ⟨w, hw⟩ := Option.isSome_iff_exists.mp h.1
    have h0 := edgeWeight_nonneg hnn hw
    have h1 := ih x b h.2
    unfold walkCost
    rw [hw]
    simp only [Option.getD_some]
    omega

theorem walk_snoc {m : StationMap} :
    ∀ (xs : List String) (a b c : String) (w : Int),
      isWalkB m a xs b = true → m.edgeWeight b c = some w →
      isWalkB m a (xs ++ [c]) c = true ∧
        walkCost m a (xs ++ [c]) = walkCost m a xs + w := by
  intro xs
  induction xs with
  | nil =>
    intro a b c w hwalk hew
    have hab : a = b := by simpa [isWalkB] using hwalk
    subst hab
    constructor
    · simp [isWalkB, hew]
    · simp [walkCost, hew]
  | cons x t ih =>
    intro a b c w hwalk hew
    unfold isWalkB at hwalk
    rw [Bool.and_eq_true] at hwalk
    obtain ⟨hrec, hcost⟩ := ih x b c w hwalk.2 hew
    constructor
    · show ((m.edgeWeight a x).isSome && isWalkB m x (t ++ [c]) c) = true
      rw [Bool.and_eq_true]
      exact ⟨hwalk.1, hrec⟩
    · show (m.edgeWeight a x).getD 0 + walkCost m x (t ++ [c]) =
        (m.edgeWeight a x).getD 0 + walkCost m x t + w
      rw [hcost]
      omega


/-- C4: if either queried name is absent from the station map,
`find_shortest_route` fails with `StationDoesNotExistError` carrying the
missing name, before any search begins; a missing origin is reported first,
whatever the destination is, and a missing destination is reported when the
origin exists. -/
theorem claim_C4_missing_station_error (m : StationMap) (o d : String) (fuel : Nat) :
    (m.hasStationB o = false → findShortestRouteAux m o d fuel = .error o) ∧
    (m.hasStationB o = true → m.hasStationB d = false →
      findShortestRouteAux m o d fuel = .error d) := by
  constructor
  · intro h
    simp [findShortestRouteAux, h]
  · intro h1 h2
    simp [findShortestRouteAux, h1, h2]

/-- Witness for C4: on the empty map the query for never-added names errors
with the origin name for every destination, and a present origin with an
absent destination errors with the destination name. -/
theorem claim_C4_witness :
    findShortestRouteAux StationMap.empty "A" "B" 5 = .error "A" ∧
    findShortestRouteAux (buildMap [("A", "B", 3)]) "A" "Z" 5 = .error "Z" :=
  ⟨(claim_C4_missing_station_error StationMap.empty "A" "B" 5).1 (by decide),
   (claim_C4_missing_station_error (buildMap [("A", "B", 3)]) "A" "Z" 5).2
     (by decide) (by decide)⟩

/-- C6: for a name present in the map, querying it as both origin and
destination returns `(0, 0)` for every loop fuel — in particular the
priority-queue loop is never entered (fuel `0` included), so the result is
independent of the node's edges, self-loops included. -/
theorem claim_C6_same_origin_destination (m : StationMap) (a : String)
    (h : m.hasStationB a = true) :
    (∀ fuel, findShortestRouteAux m a a fuel = .result (some 0) (some 0)) ∧
    m.findShortestRoute a a = .result (some 0) (some 0) := by
  have haux : ∀ fuel, findShortestRouteAux m a a fuel = .result (some 0) (some 0) := by
    intro fuel
    simp [findShortestRouteAux, h]
  exact ⟨haux, haux _⟩

/-- Witness for C6: a station with a self-loop still yields `(0, 0)`. -/
theorem claim_C6_witness :
    (∀ fuel, findShortestRouteAux (buildMap [("A", "A", 7)]) "A" "A" fuel =
      .result (some 0) (some 0)) ∧
    (buildMap [("A", "A", 7)]).findShortestRoute "A" "A" =
      .result (some 0) (some 0) :=
  claim_C6_same_origin_destination (buildMap [("A", "A", 7)]) "A" (by decide)

/-- C8: the ordering the heap uses never errs and treats equal-priority
entries as non-strictly-ordered: with equal distance keys, the Python tuple
comparison reports neither entry smaller than the other (because
`Station.__gt__` is constantly `False`), and popping a nonempty queue always
succeeds. -/
theorem claim_C8_equal_priority_comparison :
    (∀ (k : Option Int) (s t : Station),
      entryLt (k, s) (k, t) = false ∧ entryLt (k, t) (k, s) = false) ∧
    (∀ (e : Option Int × String) (q : List (Option Int × String)),
      (popMin (e :: q)).isSome = true) := by
  constructor
  · intro k s t
    have hk : ltD k k = false := by
      cases k with
      | none => rfl
      | some a => simp [ltD]
    constructor <;> simp [entryLt, hk, stationLt, stationGt]
  · intro e q
    cases h : popMin q with
    | none => simp [popMin, h]
    | some b =>
      obtain ⟨b1, rest⟩ := b
      simp only [popMin, h]
      split <;> simp

theorem searchLoopSt_eq (m : StationMap) (o z : String) :
    ∀ (fuel : Nat) (st : SState),
      searchLoopSt m o z fuel st = (m, searchLoop m o z fuel st) := by
  intro fuel
  induction fuel with
  | zero => intro st; rfl
  | succ n ih =>
    intro st
    rw [searchLoopSt, searchLoop]
    cases hp : popMin st.queue with
    | none => rfl
    | some p =>
      obtain ⟨e, q'⟩ := p
      by_cases hz : e.2 = z
      · simp only [hz, if_pos rfl]
        cases countStops st.prev o m.stations.length z <;> rfl
      · simp only [if_neg hz]
        exact ih _

theorem ltD_irrefl (a : Option Int) : ltD a a = false := by
  cases a with
  | none => rfl
  | some v => simp [ltD]

theorem ltD_asymm {a b : Option Int} (h : ltD a b = true) : ltD b a = false := by
  cases a <;> cases b <;> simp_all [ltD] <;> omega

theorem ltD_false_trans {a b c : Option Int} (hab : ltD a b = false)
    (hbc : ltD b c = false) : ltD a c = false := by
  cases a <;> cases b <;> cases c <;> simp_all [ltD] <;> omega

theorem ltD_some_false {a b : Int} (h : ltD (some a) (some b) = false) :
    b ≤ a := by
  simpa [ltD] using h

theorem ltD_some_none (a : Int) : ltD (some a) none = true := rfl

theorem popMin_cons_isSome (e : Option Int × String)
    (es : List (Option Int × String)) : (popMin (e :: es)).isSome = true := by
  rw [popMin]
  cases hp : popMin es with
  | none => rfl
  | some b =>
    obtain ⟨b1, rest⟩ := b
    dsimp only
    split <;> rfl

theorem popMin_eq_none {q : List (Option Int × String)} :
    popMin q = none ↔ q = [] := by
  cases q with
  | nil => simp [popMin]
  | cons e es =>
    constructor
    · intro h
      have := popMin_cons_isSome e es
      rw [h] at this
      cases this
    · intro h
      cases h

theorem popMin_spec {q : List (Option Int × String)}
    {e : Option Int × String} {q' : List (Option Int × String)}
    (h : popMin q = some (e, q')) :
    (∃ l1 l2, q = l1 ++ e :: l2 ∧ q' = l1 ++ l2) ∧
      ∀ b ∈ q, ltD b.1 e.1 = false := by
  induction q generalizing e q' with
  | nil => cases h
  | cons a t ih =>
    rw [popMin] at h
    cases hp : popMin t with
    | none =>
      rw [hp] at h
      have ht : t = [] := popMin_eq_none.mp hp
      subst ht
      cases h
      refine ⟨⟨[], [], rfl, rfl⟩, ?_⟩
      intro b hb
      rw [List.mem_singleton] at hb
      subst hb
      exact ltD_irrefl _
    | some p =>
      obtain ⟨b0, rest⟩ := p
      rw [hp] at h
      dsimp only at h
      obtain ⟨⟨l1, l2, hq, hq'⟩, hmin⟩ := ih hp
      by_cases hlt : ltD b0.1 a.1 = true
      · rw [if_pos hlt] at h
        cases h
        refine ⟨⟨a :: l1, l2, by rw [hq]; rfl, by rw [hq']; rfl⟩, ?_⟩
        intro b hb
        rcases List.mem_cons.mp hb with rfl | hbt
        · exact ltD_asymm hlt
        · exact hmin b hbt
      · rw [if_neg hlt] at h
        cases h
        refine ⟨⟨[], t, rfl, rfl⟩, ?_⟩
        intro b hb
        rcases List.mem_cons.mp hb with rfl | hbt
        · exact ltD_irrefl _
        · have h1 : ltD b.1 b0.1 = false := hmin b hbt
          have h2 : ltD b0.1 a.1 = false := by
            simpa using hlt
          exact ltD_false_trans h1 h2

theorem popMin_mem {q : List (Option Int × String)}
    {e : Option Int × String} {q' : List (Option Int × String)}
    (h : popMin q = some (e, q')) : e ∈ q := by
  obtain ⟨⟨l1, l2, hq, _⟩, _⟩ := popMin_spec h
  rw [hq]
  exact List.mem_append.mpr (Or.inr (List.mem_cons_self _ _))

theorem mem_removed {α : Type} [DecidableEq α] {l1 l2 : List α} {e x : α}
    (hx : x ∈ l1 ++ e :: l2) (hne : x ≠ e) : x ∈ l1 ++ l2 := by
  rcases List.mem_append.mp hx with h1 | h2
  · exact List.mem_append.mpr (Or.inl h1)
  · rcases List.mem_cons.mp h2 with rfl | h3
    · exact absurd rfl hne
    · exact List.mem_append.mpr (Or.inr h3)

theorem visited_length_lt {m : StationMap} {V : List String} {z : String}
    (hnd : V.Nodup) (hsub : ∀ x ∈ V, m.hasStationB x = true)
    (hz : m.hasStationB z = true) (hzn : z ∉ V) :
    V.length < m.stations.length := by
  have hsub' : (z :: V) ⊆ m.stations.map Station.name := by
    intro x hx
    rcases List.mem_cons.mp hx with rfl | hxv
    · obtain ⟨s, hs, hn⟩ := (hasStationB_iff m x).mp hz
      exact hn ▸ List.mem_map_of_mem Station.name hs
    · obtain ⟨s, hs, hn⟩ := (hasStationB_iff m x).mp (hsub x hxv)
      exact hn ▸ List.mem_map_of_mem Station.name hs
  have hnd' : (z :: V).Nodup := List.nodup_cons.mpr ⟨hzn, hnd⟩
  have hle := (hnd'.subperm hsub').length_le
  simp only [List.length_cons, List.length_map] at hle
  omega

theorem indexOf_lt_of_mem {V : List String} {x : String} (h : x ∈ V) :
    List.indexOf x V < V.length := List.indexOf_lt_length.mpr h

theorem inv_init {m : StationMap} {o z : String}
    (ho : m.hasStationB o = true) (hoz : o ≠ z) : Inv m o z (initState o) := by
  constructor
  · intro e he
    simp only [initState, List.mem_singleton] at he
    subst he
    exact ⟨ho, 0, 0, rfl, by simp [initState, initDist], le_refl 0⟩
  · intro x hx; cases hx
  · exact List.nodup_nil
  · intro v dv hdv
    simp only [initState, initDist] at hdv
    by_cases hvo : v = o
    · subst hvo
      rw [if_pos rfl] at hdv
      refine ⟨[], by simp [isWalkB], ?_⟩
      simp only [walkCost]
      exact Option.some_inj.mp hdv
    · rw [if_neg hvo] at hdv
      cases hdv
  · simp [initState, initDist]
  · intro x hx; cases hx
  · intro x hx; cases hx
  · intro v _ dv hdv
    simp only [initState, initDist] at hdv ⊢
    by_cases hvo : v = o
    · subst hvo
      rw [if_pos rfl] at hdv
      rw [← hdv]
      exact List.mem_singleton.mpr rfl
    · rw [if_neg hvo] at hdv
      cases hdv
  · intro v x hvx; cases hvx
  · intro v x hvx; cases hvx
  · intro v x hvx; cases hvx
  · rfl
  · intro e he
    simp only [initState, List.mem_singleton] at he
    subst he
    exact Or.inl rfl
  · intro x hx; cases hx
  · intro hz
    cases hz

theorem dist_nonneg {m : StationMap} {o : String}
    {dist : String → Option Int} (hnn : NonnegW m)
    (hds : ∀ v dv, dist v = some dv →
      ∃ xs, isWalkB m o xs v = true ∧ walkCost m o xs = dv)
    {v : String} {dv : Int} (h : dist v = some dv) : 0 ≤ dv := by
  obtain ⟨xs, hxs, hc⟩ := hds v dv h
  rw [← hc]
  exact walkCost_nonneg hnn xs o v hxs

theorem frontier_step {m : StationMap} {o z : String} {st : SState}
    (hwf : WF m) (hnn : NonnegW m) (hinv : Inv m o z st) :
    ∀ (xs : List String) (a v : String), a ∈ st.visited →
      isWalkB m a xs v = true → v ∉ st.visited →
      ∃ ky y, (some ky, y) ∈ st.queue ∧
        ∃ da, st.dist a = some da ∧ ky ≤ da + walkCost m a xs := by
  intro xs
  induction xs with
  | nil =>
    intro a v ha hw hv
    have hav : a = v := by simpa [isWalkB] using hw
    subst hav
    exact absurd ha hv
  | cons x t ih =>
    intro a v ha hw hv
    unfold isWalkB at hw
    rw [Bool.and_eq_true] at hw
    obtain ⟨w, hew⟩ := Option.isSome_iff_exists.mp hw.1
    obtain ⟨s, hfs, hmem⟩ := mem_of_edgeWeight hew
    have hroutes : (x, w) ∈ m.routesOf a := by
      rw [routesOf_eq hfs]; exact hmem
    obtain ⟨da, dvx, hda, hdx, hle⟩ := hinv.erelaxed a ha (x, w) hroutes
    have hwcost : walkCost m a (x :: t) = w + walkCost m x t := by
      have h0 : walkCost m a (x :: t) =
          (m.edgeWeight a x).getD 0 + walkCost m x t := rfl
      rw [h0, hew]
      rfl
    by_cases hx : x ∈ st.visited
    · obtain ⟨ky, y, hqmem, dx', hdx', hky⟩ := ih x v hx hw.2 hv
      rw [hdx] at hdx'
      have hdxe : dvx = dx' := Option.some_inj.mp hdx'
      refine ⟨ky, y, hqmem, da, hda, ?_⟩
      rw [hwcost]
      omega
    · refine ⟨dvx, x, hinv.qexact x hx dvx hdx, da, hda, ?_⟩
      have hcost0 : 0 ≤ walkCost m x t := walkCost_nonneg hnn t x v hw.2
      rw [hwcost]
      omega

theorem cover {m : StationMap} {o z : String} {st : SState}
    (hwf : WF m) (hnn : NonnegW m) (hinv : Inv m o z st) :
    ∀ (xs : List String) (v : String), isWalkB m o xs v = true →
      v ∉ st.visited →
      ∃ ky y, (some ky, y) ∈ st.queue ∧ ky ≤ walkCost m o xs := by
  intro xs v hw hv
  by_cases ho : o ∈ st.visited
  · obtain ⟨ky, y, hqmem, da, hda, hky⟩ := frontier_step hwf hnn hinv xs o v ho hw hv
    rw [hinv.dorigin] at hda
    have : da = 0 := (Option.some_inj.mp hda).symm
    subst this
    exact ⟨ky, y, hqmem, by omega⟩
  · refine ⟨0, o, hinv.qexact o ho 0 hinv.dorigin, ?_⟩
    exact walkCost_nonneg hnn xs o v hw

theorem popped_min {m : StationMap} {o z : String} {st : SState}
    {k : Option Int} {u : String} {q' : List (Option Int × String)}
    (hwf : WF m) (hnn : NonnegW m) (hinv : Inv m o z st)
    (hpop : popMin st.queue = some ((k, u), q')) :
    ∃ du, st.dist u = some du ∧
      ∀ xs, isWalkB m o xs u = true → du ≤ walkCost m o xs := by
  obtain ⟨_, kv, du, hk, hdu, hduk⟩ := hinv.qmem (k, u) (popMin_mem hpop)
  refine ⟨du, hdu, ?_⟩
  intro xs hxs
  by_cases huv : u ∈ st.visited
  · obtain ⟨du', hdu', hmin⟩ := hinv.dvisited u huv
    rw [hdu] at hdu'
    have hdd : du = du' := Option.some_inj.mp hdu'
    rw [hdd]
    exact hmin xs hxs
  · obtain ⟨ky, y, hq, hky⟩ := cover hwf hnn hinv xs u hxs huv
    have hlt : ltD (some ky) k = false := (popMin_spec hpop).2 (some ky, y) hq
    subst hk
    have hkk : kv ≤ ky := ltD_some_false hlt
    omega

theorem upd_self {α : Type} (f : String → α) (x : String) (v : α) :
    upd f x v x = v := by
  simp [upd]

theorem upd_ne {α : Type} (f : String → α) (x y : String) (v : α)
    (h : y ≠ x) : upd f x v y = f y := by
  simp [upd, h]

theorem relaxStep_eq (u : String) (st : SState) (e : String × Int) :
    relaxStep u st e =
      if e.1 ∈ st.visited then st
      else if ltD (addD (st.dist u) e.2) (st.dist e.1) then
        { st with
          queue := st.queue ++ [(addD (st.dist u) e.2, e.1)]
          dist := upd st.dist e.1 (addD (st.dist u) e.2)
          prev := upd st.prev e.1 (some u) }
      else st := rfl

theorem relaxStep_spec {m : StationMap} {o z u : String} {du : Int}
    {st : SState} {e : String × Int}
    (hwf : WF m) (hnn : NonnegW m)
    (he : m.edgeWeight u e.1 = some e.2) (hw0 : 0 ≤ e.2)
    (hm : MInv m o z u du st) :
    MInv m o z u du (relaxStep u st e) ∧
    (relaxStep u st e).visited = st.visited ∧
    (relaxStep u st e).queue.length ≤ st.queue.length + 1 ∧
    (∀ v, ltD (st.dist v) ((relaxStep u st e).dist v) = false) ∧
    (e.1 ∈ st.visited ∨ ∃ dv, (relaxStep u st e).dist e.1 = some dv ∧
      dv ≤ du + e.2) ∧
    (∀ v ∈ st.visited, (relaxStep u st e).dist v = st.dist v ∧
      (relaxStep u st e).prev v = st.prev v) ∧
    (relaxStep u st e).prev u = st.prev u ∧
    (relaxStep u st e).dist u = st.dist u := by
  rw [relaxStep_eq]
  by_cases hv : e.1 ∈ st.visited
  · rw [if_pos hv]
    exact ⟨hm, rfl, Nat.le_succ _, fun v => ltD_irrefl _, Or.inl hv,
      fun v _ => ⟨rfl, rfl⟩, rfl, rfl⟩
  · rw [if_neg hv, hm.udist,
      show addD (some du) e.2 = some (du + e.2) from rfl]
    by_cases hlt : ltD (some (du + e.2)) (st.dist e.1) = true
    · rw [if_pos hlt]
      have hdu0 : 0 ≤ du := dist_nonneg hnn hm.dsound hm.udist
      have hne_u : e.1 ≠ u := by
        intro hcontra
        rw [hcontra, hm.udist] at hlt
        simp only [ltD, decide_eq_true_eq] at hlt
        omega
      have hne_o : e.1 ≠ o := by
        intro hcontra
        rw [hcontra, hm.dorigin] at hlt
        simp only [ltD, decide_eq_true_eq] at hlt
        omega
      have hreg : m.hasStationB e.1 = true := edgeWeight_dest_registered hwf he
      have hwalk : ∃ xs, isWalkB m o xs e.1 = true ∧
          walkCost m o xs = du + e.2 := by
        obtain ⟨xs, hxs, hc⟩ := hm.dsound u du hm.udist
        obtain ⟨hsn, hcn⟩ := walk_snoc xs o u e.1 e.2 hxs he
        exact ⟨xs ++ [e.1], hsn, by rw [hcn, hc]⟩
      refine ⟨?_, rfl, ?_, ?_, ?_, ?_, ?_, ?_⟩
      · constructor
        · -- qmem
          intro f hf
          rcases List.mem_append.mp hf with hold | hnew
          · obtain ⟨hfr, kv, dv, hk, hdist, hle⟩ := hm.qmem f hold
            by_cases hfe : f.2 = e.1
            · refine ⟨hfr, kv, du + e.2, hk, ?_, ?_⟩
              · show upd st.dist e.1 (some (du + e.2)) f.2 = _
                rw [hfe, upd_self]
              · rw [hfe] at hdist
                rw [hdist] at hlt
                simp only [ltD, decide_eq_true_eq] at hlt
                omega
            · refine ⟨hfr, kv, dv, hk, ?_, hle⟩
              show upd st.dist e.1 (some (du + e.2)) f.2 = some dv
              rw [upd_ne _ _ _ _ hfe]
              exact hdist
          · rw [List.mem_singleton] at hnew
            subst hnew
            exact ⟨hreg, du + e.2, du + e.2, rfl, upd_self _ _ _, le_refl _⟩
        · exact hm.vmem
        · exact hm.vnodup
        · -- dsound
          intro v dv hdv
          dsimp only at hdv
          by_cases hve : v = e.1
          · subst hve
            rw [upd_self] at hdv
            obtain ⟨xs, hxs, hc⟩ := hwalk
            exact ⟨xs, hxs, by rw [hc]; exact Option.some_inj.mp hdv⟩
          · rw [upd_ne _ _ _ _ hve] at hdv
            exact hm.dsound v dv hdv
        · -- dorigin
          show upd st.dist e.1 (some (du + e.2)) o = some 0
          rw [upd_ne _ _ _ _ (Ne.symm hne_o)]
          exact hm.dorigin
        · -- dvisited
          intro x hx
          have hxe : x ≠ e.1 := fun hc => hv (hc ▸ hx)
          obtain ⟨dx, hdx, hminx⟩ := hm.dvisited x hx
          refine ⟨dx, ?_, hminx⟩
          show upd st.dist e.1 (some (du + e.2)) x = some dx
          rw [upd_ne _ _ _ _ hxe]
          exact hdx
        · -- erelaxed
          intro x hx p hp
          have hxe : x ≠ e.1 := fun hc => hv (hc ▸ hx)
          obtain ⟨dx, dv, hdx, hdv, hle⟩ := hm.erelaxed x hx p hp
          by_cases hpe : p.1 = e.1
          · refine ⟨dx, du + e.2, ?_, ?_, ?_⟩
            · show upd st.dist e.1 (some (du + e.2)) x = some dx
              rw [upd_ne _ _ _ _ hxe]
              exact hdx
            · show upd st.dist e.1 (some (du + e.2)) p.1 = _
              rw [hpe, upd_self]
            · rw [hpe] at hdv
              rw [hdv] at hlt
              simp only [ltD, decide_eq_true_eq] at hlt
              omega
          · refine ⟨dx, dv, ?_, ?_, hle⟩
            · show upd st.dist e.1 (some (du + e.2)) x = some dx
              rw [upd_ne _ _ _ _ hxe]
              exact hdx
            · show upd st.dist e.1 (some (du + e.2)) p.1 = some dv
              rw [upd_ne _ _ _ _ hpe]
              exact hdv
        · -- qexact
          intro v hvv hvu dv hdv
          dsimp only at hdv
          by_cases hve : v = e.1
          · subst hve
            rw [upd_self] at hdv
            rw [← hdv]
            exact List.mem_append.mpr (Or.inr (List.mem_singleton.mpr rfl))
          · rw [upd_ne _ _ _ _ hve] at hdv
            exact List.mem_append.mpr (Or.inl (hm.qexact v hvv hvu dv hdv))
        · exact hm.unvis
        · exact hm.umem
        · -- udist
          show upd st.dist e.1 (some (du + e.2)) u = some du
          rw [upd_ne _ _ _ _ (Ne.symm hne_u)]
          exact hm.udist
        · exact hm.umin
        · -- psound
          intro v x hpv
          dsimp only at hpv
          by_cases hve : v = e.1
          · subst hve
            rw [upd_self] at hpv
            have hxu : x = u := (Option.some_inj.mp hpv).symm
            subst hxu
            refine ⟨du, du + e.2, e.2, ?_, ?_, he, le_refl _⟩
            · show upd st.dist e.1 (some (du + e.2)) x = some du
              rw [upd_ne _ _ _ _ (Ne.symm hne_u)]
              exact hm.udist
            · show upd st.dist e.1 (some (du + e.2)) e.1 = _
              rw [upd_self]
          · rw [upd_ne _ _ _ _ hve] at hpv
            obtain ⟨dx, dv, w, hdx, hdv, hew, hle⟩ := hm.psound v x hpv
            by_cases hxe : x = e.1
            · refine ⟨du + e.2, dv, w, ?_, ?_, hew, ?_⟩
              · show upd st.dist e.1 (some (du + e.2)) x = _
                rw [hxe, upd_self]
              · show upd st.dist e.1 (some (du + e.2)) v = some dv
                rw [upd_ne _ _ _ _ hve]
                exact hdv
              · rw [hxe] at hdx
                rw [hdx] at hlt
                simp only [ltD, decide_eq_true_eq] at hlt
                omega
            · refine ⟨dx, dv, w, ?_, ?_, hew, hle⟩
              · show upd st.dist e.1 (some (du + e.2)) x = some dx
                rw [upd_ne _ _ _ _ hxe]
                exact hdx
              · show upd st.dist e.1 (some (du + e.2)) v = some dv
                rw [upd_ne _ _ _ _ hve]
                exact hdv
        · -- pvis
          intro v x hpv
          dsimp only at hpv
          by_cases hve : v = e.1
          · subst hve
            rw [upd_self] at hpv
            exact Or.inr (Option.some_inj.mp hpv).symm
          · rw [upd_ne _ _ _ _ hve] at hpv
            exact hm.pvis v x hpv
        · -- pvisu
          intro x hpu
          dsimp only at hpu
          rw [upd_ne _ _ _ _ (Ne.symm hne_u)] at hpu
          exact hm.pvisu x hpu
        · -- pord
          intro v x hpv hvv
          dsimp only at hpv
          have hve : v ≠ e.1 := fun hc => hv (hc ▸ hvv)
          rw [upd_ne _ _ _ _ hve] at hpv
          exact hm.pord v x hpv hvv
        · -- porigin
          show upd st.prev e.1 (some u) o = none
          rw [upd_ne _ _ _ _ (Ne.symm hne_o)]
          exact hm.porigin
        · -- qprev
          intro f hf
          by_cases hfe : f.2 = e.1
          · refine Or.inr ?_
            show (upd st.prev e.1 (some u) f.2).isSome = true
            rw [hfe, upd_self]
            rfl
          · rcases List.mem_append.mp hf with hold | hnew
            · rcases hm.qprev f hold with h1 | h2
              · exact Or.inl h1
              · refine Or.inr ?_
                show (upd st.prev e.1 (some u) f.2).isSome = true
                rw [upd_ne _ _ _ _ hfe]
                exact h2
            · rw [List.mem_singleton] at hnew
              subst hnew
              exact absurd rfl hfe
        · -- vprev
          intro x hx
          have hxe : x ≠ e.1 := fun hc => hv (hc ▸ hx)
          rcases hm.vprev x hx with h1 | h2
          · exact Or.inl h1
          · refine Or.inr ?_
            show (upd st.prev e.1 (some u) x).isSome = true
            rw [upd_ne _ _ _ _ hxe]
            exact h2
        · -- uprev
          rcases hm.uprev with h1 | h2
          · exact Or.inl h1
          · refine Or.inr ?_
            show (upd st.prev e.1 (some u) u).isSome = true
            rw [upd_ne _ _ _ _ (Ne.symm hne_u)]
            exact h2
        · exact hm.znvis
      · -- queue length
        show (st.queue ++ [(some (du + e.2), e.1)]).length ≤ st.queue.length + 1
        rw [List.length_append]
        rfl
      · -- pointwise distance decrease
        intro v
        by_cases hve : v = e.1
        · subst hve
          show ltD (st.dist e.1) (upd st.dist e.1 (some (du + e.2)) e.1) = false
          rw [upd_self]
          cases hd : st.dist e.1 with
          | none => rfl
          | some dv0 =>
            rw [hd] at hlt
            simp only [ltD, decide_eq_true_eq] at hlt
            simp only [ltD, decide_eq_false_iff_not]
            omega
        · show ltD (st.dist v) (upd st.dist e.1 (some (du + e.2)) v) = false
          rw [upd_ne _ _ _ _ hve]
          exact ltD_irrefl _
      · -- POST for this edge
        refine Or.inr ⟨du + e.2, ?_, le_refl _⟩
        show upd st.dist e.1 (some (du + e.2)) e.1 = _
        rw [upd_self]
      · -- visited stations untouched
        intro v hvv
        have hve : v ≠ e.1 := fun hc => hv (hc ▸ hvv)
        constructor
        · show upd st.dist e.1 (some (du + e.2)) v = st.dist v
          rw [upd_ne _ _ _ _ hve]
        · show upd st.prev e.1 (some u) v = st.prev v
          rw [upd_ne _ _ _ _ hve]
      · -- prev u untouched
        show upd st.prev e.1 (some u) u = st.prev u
        rw [upd_ne _ _ _ _ (Ne.symm hne_u)]
      · -- dist u untouched (the goal's right side was rewritten to some du)
        show upd st.dist e.1 (some (du + e.2)) u = some du
        rw [upd_ne _ _ _ _ (Ne.symm hne_u)]
        exact hm.udist
    · rw [if_neg hlt]
      refine ⟨hm, rfl, Nat.le_succ _, fun v => ltD_irrefl _, ?_,
        fun v _ => ⟨rfl, rfl⟩, rfl, hm.udist⟩
      cases hd : st.dist e.1 with
      | none =>
        rw [hd] at hlt
        exact absurd rfl hlt
      | some dv =>
        rw [hd] at hlt
        simp only [ltD, decide_eq_true_eq] at hlt
        exact Or.inr ⟨dv, rfl, by omega⟩

theorem ltD_false_some {a : Int} {b : Option Int}
    (h : ltD (some a) b = false) : ∃ b', b = some b' ∧ b' ≤ a := by
  cases b with
  | none => cases h
  | some b' =>
    refine ⟨b', rfl, ?_⟩
    simpa [ltD] using h

theorem relaxAll_cons (u : String) (st : SState) (e : String × Int)
    (t : List (String × Int)) :
    relaxAll u st (e :: t) = relaxAll u (relaxStep u st e) t := rfl

theorem relaxAll_nil (u : String) (st : SState) : relaxAll u st [] = st := rfl

theorem relaxAll_spec {m : StationMap} {o z u : String} {du : Int}
    (hwf : WF m) (hnn : NonnegW m) :
    ∀ (rs : List (String × Int)) (st : SState),
      (∀ e ∈ rs, m.edgeWeight u e.1 = some e.2 ∧ 0 ≤ e.2) →
      MInv m o z u du st →
      MInv m o z u du (relaxAll u st rs) ∧
      (relaxAll u st rs).visited = st.visited ∧
      (relaxAll u st rs).queue.length ≤ st.queue.length + rs.length ∧
      (∀ v, ltD (st.dist v) ((relaxAll u st rs).dist v) = false) ∧
      (∀ e ∈ rs, e.1 ∈ st.visited ∨
        ∃ dv, (relaxAll u st rs).dist e.1 = some dv ∧ dv ≤ du + e.2) ∧
      (∀ v ∈ st.visited, (relaxAll u st rs).dist v = st.dist v ∧
        (relaxAll u st rs).prev v = st.prev v) ∧
      (relaxAll u st rs).prev u = st.prev u ∧
      (relaxAll u st rs).dist u = st.dist u := by
  intro rs
  induction rs with
  | nil =>
    intro st _ hm
    rw [relaxAll_nil]
    exact ⟨hm, rfl, Nat.le_add_right _ _, fun v => ltD_irrefl _,
      fun e he => absurd he (List.not_mem_nil e),
      fun v _ => ⟨rfl, rfl⟩, rfl, rfl⟩
  | cons e t ih =>
    intro st hrs hm
    rw [relaxAll_cons]
    obtain ⟨hstep, hvis, hlen, hdec, hpost, htouch, hpru, hdiu⟩ :=
      relaxStep_spec hwf hnn (hrs e (List.mem_cons_self e t)).1
        (hrs e (List.mem_cons_self e t)).2 hm
    obtain ⟨ihm, ihvis, ihlen, ihdec, ihpost, ihtouch, ihpru, ihdiu⟩ :=
      ih (relaxStep u st e) (fun f hf => hrs f (List.mem_cons_of_mem e hf)) hstep
    refine ⟨ihm, ihvis.trans hvis, ?_, ?_, ?_, ?_, ihpru.trans hpru,
      ihdiu.trans hdiu⟩
    · calc (relaxAll u (relaxStep u st e) t).queue.length
          ≤ (relaxStep u st e).queue.length + t.length := ihlen
        _ ≤ (st.queue.length + 1) + t.length := by omega
        _ = st.queue.length + (e :: t).length := by
            rw [List.length_cons]; omega
    · intro v
      exact ltD_false_trans (hdec v) (ihdec v)
    · intro f hf
      rcases List.mem_cons.mp hf with hfe | hft
      · subst hfe
        rcases hpost with hl | ⟨dv, hdv, hle⟩
        · exact Or.inl hl
        · have hd2 := ihdec f.1
          rw [hdv] at hd2
          obtain ⟨dv', hdv', hle'⟩ := ltD_false_some hd2
          exact Or.inr ⟨dv', hdv', by omega⟩
      · rcases ihpost f hft with hl | hr
        · rw [hvis] at hl
          exact Or.inl hl
        · exact Or.inr hr
    · intro v hvv
      have hvv1 : v ∈ (relaxStep u st e).visited := by rw [hvis]; exact hvv
      obtain ⟨hd1, hp1⟩ := htouch v hvv
      obtain ⟨hd2, hp2⟩ := ihtouch v hvv1
      exact ⟨hd2.trans hd1, hp2.trans hp1⟩

theorem relaxStep_eq_of_visited {u : String} {st : SState}
    {e : String × Int}
    (her : ∃ dx dv, st.dist u = some dx ∧ st.dist e.1 = some dv ∧
      dv ≤ dx + e.2) :
    relaxStep u st e = st := by
  rw [relaxStep_eq]
  by_cases hv : e.1 ∈ st.visited
  · rw [if_pos hv]
  · rw [if_neg hv]
    obtain ⟨dx, dv, hdx, hdv, hle⟩ := her
    rw [hdx, hdv]
    have hlt : ltD (addD (some dx) e.2) (some dv) = false := by
      show ltD (some (dx + e.2)) (some dv) = false
      simp only [ltD, decide_eq_false_iff_not]
      omega
    rw [hlt]
    simp

theorem relaxAll_eq_of_visited {m : StationMap} {u : String} {st : SState}
    (her : ∀ p ∈ m.routesOf u, ∃ dx dv, st.dist u = some dx ∧
      st.dist p.1 = some dv ∧ dv ≤ dx + p.2) :
    ∀ rs, (∀ e ∈ rs, e ∈ m.routesOf u) → relaxAll u st rs = st := by
  intro rs
  induction rs with
  | nil => intro _; rfl
  | cons e t ih =>
    intro hsub
    rw [relaxAll_cons,
      relaxStep_eq_of_visited (her e (hsub e (List.mem_cons_self e t)))]
    exact ih (fun f hf => hsub f (List.mem_cons_of_mem e hf))

theorem popMin_length {q q' : List (Option Int × String)}
    {e : Option Int × String} (h : popMin q = some (e, q')) :
    q'.length + 1 = q.length := by
  obtain ⟨⟨l1, l2, hq, hq'⟩, _⟩ := popMin_spec h
  rw [hq, hq']
  simp only [List.length_append, List.length_cons]
  omega

theorem popMin_subset {q q' : List (Option Int × String)}
    {e b : Option Int × String} (h : popMin q = some (e, q'))
    (hb : b ∈ q') : b ∈ q := by
  obtain ⟨⟨l1, l2, hq, hq'⟩, _⟩ := popMin_spec h
  rw [hq' ] at hb
  rw [hq]
  rcases List.mem_append.mp hb with h1 | h2
  · exact List.mem_append.mpr (Or.inl h1)
  · exact List.mem_append.mpr (Or.inr (List.mem_cons_of_mem e h2))

theorem popMin_mem_of_ne {q q' : List (Option Int × String)}
    {e b : Option Int × String} (h : popMin q = some (e, q'))
    (hb : b ∈ q) (hne : b ≠ e) : b ∈ q' := by
  obtain ⟨⟨l1, l2, hq, hq'⟩, _⟩ := popMin_spec h
  rw [hq]  at hb
  rw [hq']
  exact mem_removed hb hne

theorem searchLoop_succ_step {m : StationMap} {o dest : String}
    {fuel : Nat} {st : SState} {e : Option Int × String}
    {q' : List (Option Int × String)}
    (hpop : popMin st.queue = some (e, q')) (hne : e.2 ≠ dest) :
    searchLoop m o dest (fuel + 1) st =
      searchLoop m o dest fuel (stepIter m e.2 q' st) := by
  rw [searchLoop, hpop]
  dsimp only
  rw [if_neg hne]
  rfl

theorem searchLoop_succ_empty {m : StationMap} {o dest : String}
    {fuel : Nat} {st : SState} (hpop : popMin st.queue = none) :
    searchLoop m o dest (fuel + 1) st = .result none none := by
  rw [searchLoop, hpop]

theorem searchLoop_succ_dest {m : StationMap} {o dest : String}
    {fuel : Nat} {st : SState} {e : Option Int × String}
    {q' : List (Option Int × String)}
    (hpop : popMin st.queue = some (e, q')) (hdest : e.2 = dest) :
    searchLoop m o dest (fuel + 1) st =
      match countStops st.prev o m.stations.length e.2 with
      | some k => .result (st.dist e.2) (some k)
      | none => .stuck := by
  rw [searchLoop, hpop]
  dsimp only
  rw [if_pos hdest]

theorem phiStation_mono {V : List String} {u : String} (x : Station) :
    phiStation (V ++ [u]) x ≤ phiStation V x := by
  unfold phiStation
  by_cases h1 : x.name ∈ V
  · rw [if_pos h1, if_pos (List.mem_append.mpr (Or.inl h1))]
  · rw [if_neg h1]
    by_cases h2 : x.name ∈ V ++ [u]
    · rw [if_pos h2]
      omega
    · rw [if_neg h2]

theorem sum_phi_drop {V : List String} {u : String} (hu : u ∉ V) :
    ∀ (l : List Station) (s : Station), s ∈ l → s.name = u →
      (l.map (phiStation (V ++ [u]))).sum + (1 + s.routes.length) ≤
        (l.map (phiStation V)).sum := by
  intro l
  induction l with
  | nil => intro s hs; cases hs
  | cons a t ih =>
    intro s hs hname
    simp only [List.map_cons, List.sum_cons]
    rcases List.mem_cons.mp hs with hsa | hst
    · subst hsa
      have h1 : phiStation (V ++ [u]) s = 0 := by
        unfold phiStation
        rw [if_pos (List.mem_append.mpr (Or.inr (List.mem_singleton.mpr hname)))]
      have h2 : phiStation V s = 1 + s.routes.length := by
        unfold phiStation
        rw [if_neg (fun hc => hu (hname ▸ hc))]
      have h3 : (t.map (phiStation (V ++ [u]))).sum ≤
          (t.map (phiStation V)).sum :=
        List.sum_le_sum (fun x _ => phiStation_mono x)
      omega
    · have h3 := ih s hst hname
      have h4 := @phiStation_mono V u a
      omega

theorem inv_pop_state {m : StationMap} {o z : String} {st : SState}
    {k : Option Int} {u : String} {q' : List (Option Int × String)}
    (hinv : Inv m o z st) (hpop : popMin st.queue = some ((k, u), q'))
    (hu : u ∈ st.visited) : Inv m o z { st with queue := q' } := by
  constructor
  · intro e he
    exact hinv.qmem e (popMin_subset hpop he)
  · exact hinv.vmem
  · exact hinv.vnodup
  · exact hinv.dsound
  · exact hinv.dorigin
  · exact hinv.dvisited
  · exact hinv.erelaxed
  · intro v hv dv hdv
    have hvu : v ≠ u := fun hc => hv (hc ▸ hu)
    refine popMin_mem_of_ne hpop (hinv.qexact v hv dv hdv) ?_
    intro hc
    exact hvu (congrArg Prod.snd hc)
  · exact hinv.psound
  · exact hinv.pvis
  · exact hinv.pord
  · exact hinv.porigin
  · intro e he
    exact hinv.qprev e (popMin_subset hpop he)
  · exact hinv.vprev
  · exact hinv.znvis

theorem iter_revisit {m : StationMap} {o z : String} {st : SState}
    {k : Option Int} {u : String} {q' : List (Option Int × String)}
    (hinv : Inv m o z st) (hpop : popMin st.queue = some ((k, u), q'))
    (hu : u ∈ st.visited) :
    Inv m o z (stepIter m u q' st) ∧
      phi m (stepIter m u q' st) + 1 = phi m st := by
  have hnoop : relaxAll u { st with queue := q' } (m.routesOf u) =
      { st with queue := q' } := by
    apply relaxAll_eq_of_visited
    · intro p hp
      exact hinv.erelaxed u hu p hp
    · intro e he
      exact he
  have hstep : stepIter m u q' st = { st with queue := q' } := by
    unfold stepIter
    dsimp only
    rw [hnoop]
    unfold visit
    rw [if_pos hu]
  rw [hstep]
  refine ⟨inv_pop_state hinv hpop hu, ?_⟩
  unfold phi
  have hlen := popMin_length hpop
  simp only
  omega

theorem iter_visit {m : StationMap} {o z : String} {st : SState}
    {k : Option Int} {u : String} {q' : List (Option Int × String)}
    (hwf : WF m) (hnn : NonnegW m)
    (hinv : Inv m o z st) (hpop : popMin st.queue = some ((k, u), q'))
    (hu : u ∉ st.visited) (huz : u ≠ z) :
    Inv m o z (stepIter m u q' st) ∧
      phi m (stepIter m u q' st) < phi m st := by
  have humem : m.hasStationB u = true :=
    (hinv.qmem (k, u) (popMin_mem hpop)).1
  obtain ⟨du, hdu, humin⟩ := popped_min hwf hnn hinv hpop
  obtain ⟨s, hfs⟩ := findStation_isSome humem
  have hsmem : s ∈ m.stations := (findStation_mem hfs).1
  have hsname : s.name = u := (findStation_mem hfs).2
  have hroutes : m.routesOf u = s.routes := routesOf_eq hfs
  have hm0 : MInv m o z u du { st with queue := q' } := by
    constructor
    · intro e he
      exact hinv.qmem e (popMin_subset hpop he)
    · exact hinv.vmem
    · exact hinv.vnodup
    · exact hinv.dsound
    · exact hinv.dorigin
    · exact hinv.dvisited
    · exact hinv.erelaxed
    · intro v hv hvu dv hdv
      refine popMin_mem_of_ne hpop (hinv.qexact v hv dv hdv) ?_
      intro hc
      exact hvu (congrArg Prod.snd hc)
    · exact hu
    · exact humem
    · exact hdu
    · exact humin
    · exact hinv.psound
    · exact fun v x h => Or.inl (hinv.pvis v x h)
    · exact fun x h => hinv.pvis u x h
    · exact fun v x h hv => ⟨hinv.pvis v x h, hinv.pord v x h hv⟩
    · exact hinv.porigin
    · intro e he
      exact hinv.qprev e (popMin_subset hpop he)
    · exact hinv.vprev
    · exact hinv.qprev (k, u) (popMin_mem hpop)
    · exact hinv.znvis
  have hrs : ∀ e ∈ m.routesOf u, m.edgeWeight u e.1 = some e.2 ∧ 0 ≤ e.2 := by
    intro e he
    rw [hroutes] at he
    exact ⟨edgeWeight_of_mem hwf hfs he, hnn s hsmem e he⟩
  obtain ⟨hm1, hvis1, hlen1, hdec1, hpost1, htouch1, hpru1, hdiu1⟩ :=
    relaxAll_spec hwf hnn (m.routesOf u) { st with queue := q' } hrs hm0
  have hu1 : u ∉ (relaxAll u { st with queue := q' } (m.routesOf u)).visited := by
    rw [hvis1]
    exact hu
  have hstep : stepIter m u q' st =
      { relaxAll u { st with queue := q' } (m.routesOf u) with
        visited :=
          (relaxAll u { st with queue := q' } (m.routesOf u)).visited ++ [u] } := by
    unfold stepIter
    dsimp only
    unfold visit
    rw [if_neg hu1]
  rw [hstep]
  dsimp only
  set st1 := relaxAll u { st with queue := q' } (m.routesOf u) with hst1
  constructor
  · constructor
    · exact hm1.qmem
    · intro x hx
      rcases List.mem_append.mp hx with h1 | h2
      · exact hm1.vmem x h1
      · rw [List.mem_singleton] at h2
        subst h2
        exact humem
    · rw [List.nodup_append]
      refine ⟨hm1.vnodup, List.nodup_singleton u, ?_⟩
      intro a ha hab
      rw [List.mem_singleton] at hab
      subst hab
      exact hu1 ha
    · exact hm1.dsound
    · exact hm1.dorigin
    · intro x hx
      rcases List.mem_append.mp hx with h1 | h2
      · exact hm1.dvisited x h1
      · rw [List.mem_singleton] at h2
        subst h2
        exact ⟨du, hm1.udist, hm1.umin⟩
    · intro x hx p hp
      rcases List.mem_append.mp hx with h1 | h2
      · exact hm1.erelaxed x h1 p hp
      · rw [List.mem_singleton] at h2
        subst h2
        rcases hpost1 p hp with hl | ⟨dv, hdv, hle⟩
        · obtain ⟨dp, hdp, hminp⟩ := hm1.dvisited p.1 (by rw [hvis1]; exact hl)
          obtain ⟨xs, hxs, hc⟩ := hm1.dsound x du hm1.udist
          obtain ⟨hsn, hcn⟩ := walk_snoc xs o x p.1 p.2 hxs (hrs p hp).1
          have hbound : dp ≤ du + p.2 := by
            have := hminp (xs ++ [p.1]) hsn
            rw [hcn, hc] at this
            exact this
          exact ⟨du, dp, hm1.udist, hdp, hbound⟩
        · exact ⟨du, dv, hm1.udist, hdv, hle⟩
    · intro v hv dv hdv
      have hvW : v ∉ st1.visited := fun hc =>
        hv (List.mem_append.mpr (Or.inl hc))
      have hvu : v ≠ u := fun hc =>
        hv (List.mem_append.mpr (Or.inr (List.mem_singleton.mpr hc)))
      exact hm1.qexact v hvW hvu dv hdv
    · exact hm1.psound
    · intro v x h
      rcases hm1.pvis v x h with h1 | h2
      · exact List.mem_append.mpr (Or.inl h1)
      · subst h2
        exact List.mem_append.mpr (Or.inr (List.mem_singleton.mpr rfl))
    · intro v x h hv
      rcases List.mem_append.mp hv with h1 | h2
      · obtain ⟨hxW, hlt⟩ := hm1.pord v x h h1
        rw [List.indexOf_append_of_mem hxW, List.indexOf_append_of_mem h1]
        exact hlt
      · rw [List.mem_singleton] at h2
        have hxW : x ∈ st1.visited := hm1.pvisu x (h2 ▸ h)
        have h3 : List.indexOf x (st1.visited ++ [u]) < st1.visited.length := by
          rw [List.indexOf_append_of_mem hxW]
          exact indexOf_lt_of_mem hxW
        have h4 : List.indexOf v (st1.visited ++ [u]) = st1.visited.length := by
          rw [h2, List.indexOf_append_of_not_mem hu1, List.indexOf_cons_self]
          omega
        show List.indexOf x (st1.visited ++ [u]) <
          List.indexOf v (st1.visited ++ [u])
        omega
    · exact hm1.porigin
    · exact hm1.qprev
    · intro x hx
      rcases List.mem_append.mp hx with h1 | h2
      · exact hm1.vprev x h1
      · rw [List.mem_singleton] at h2
        subst h2
        exact hm1.uprev
    · intro hz
      rcases List.mem_append.mp hz with h1 | h2
      · exact hm1.znvis h1
      · rw [List.mem_singleton] at h2
        exact huz h2.symm
  · unfold phi
    dsimp only
    have hdrop := @sum_phi_drop st.visited u hu
      m.stations s hsmem hsname
    have hvq : st1.visited = st.visited := hvis1
    have hql : q'.length + 1 = st.queue.length := popMin_length hpop
    have hlen2 : st1.queue.length ≤ q'.length + s.routes.length := by
      have := hlen1
      rw [hroutes] at this
      exact this
    rw [hvq]
    omega

theorem countStops_succ (prev : String → Option String) (o : String)
    (f : Nat) (v : String) :
    countStops prev o (f + 1) v =
      match prev v with
      | none => none
      | some p =>
        if p = o then some 0
        else (countStops prev o f p).map (fun k => k + 1) := rfl

theorem walk_single {m : StationMap} {o v : String} {w : Int}
    (hew : m.edgeWeight o v = some w) :
    isWalkB m o [v] v = true ∧ walkCost m o [v] = w := by
  constructor
  · show ((m.edgeWeight o v).isSome && isWalkB m v [] v) = true
    rw [hew]
    simp [isWalkB]
  · show (m.edgeWeight o v).getD 0 + walkCost m v [] = w
    rw [hew]
    simp [walkCost]

theorem countStops_chain {m : StationMap} {o z : String} {st : SState}
    (hwf : WF m) (hnn : NonnegW m) (hinv : Inv m o z st) :
    ∀ (n : Nat) (v : String), v ∈ st.visited →
      List.indexOf v st.visited = n → v ≠ o →
      ∀ dv, st.dist v = some dv →
      ∀ fuel, n + 1 ≤ fuel →
      ∃ k xs, countStops st.prev o fuel v = some k ∧
        isWalkB m o xs v = true ∧ xs.length = k + 1 ∧
        walkCost m o xs ≤ dv := by
  intro n
  induction n using Nat.strong_induction_on with
  | _ n ih =>
    intro v hv hn hvo dv hdv fuel hfuel
    cases fuel with
    | zero => omega
    | succ f =>
      rcases hinv.vprev v hv with h1 | h2
      · exact absurd h1 hvo
      · obtain ⟨p, hp⟩ := Option.isSome_iff_exists.mp h2
        obtain ⟨dp, dv', w, hdp, hdv', hew, hle⟩ := hinv.psound v p hp
        rw [hdv] at hdv'
        have hdve : dv' = dv := (Option.some_inj.mp hdv').symm
        subst hdve
        rw [countStops_succ, hp]
        dsimp only
        by_cases hpo : p = o
        · rw [if_pos hpo]
          subst hpo
          rw [hinv.dorigin] at hdp
          have hdp0 : dp = 0 := (Option.some_inj.mp hdp).symm
          obtain ⟨hw1, hw2⟩ := walk_single hew
          exact ⟨0, [v], rfl, hw1, rfl, by omega⟩
        · rw [if_neg hpo]
          have hpvis : p ∈ st.visited := hinv.pvis v p hp
          have hord : List.indexOf p st.visited < List.indexOf v st.visited :=
            hinv.pord v p hp hv
          rw [hn] at hord
          obtain ⟨k, xs, hcount, hwalk, hlen, hcost⟩ :=
            ih (List.indexOf p st.visited) hord p hpvis rfl hpo dp hdp f
              (by omega)
          rw [hcount]
          obtain ⟨hsn, hcn⟩ := walk_snoc xs o p v w hwalk hew
          refine ⟨k + 1, xs ++ [v], rfl, hsn, ?_, ?_⟩
          · rw [List.length_append, hlen]
            rfl
          · rw [hcn]
            omega

theorem stations_length_pos {m : StationMap} {z : String}
    (hz : m.hasStationB z = true) : 1 ≤ m.stations.length := by
  obtain ⟨s, hs, _⟩ := (hasStationB_iff m z).mp hz
  cases hl : m.stations with
  | nil => rw [hl] at hs; cases hs
  | cons a t => rw [List.length_cons]; omega

theorem searchLoop_dest {m : StationMap} {o z : String} {st : SState}
    {fuel : Nat} {k : Option Int} {q' : List (Option Int × String)}
    (hwf : WF m) (hnn : NonnegW m) (hinv : Inv m o z st)
    (hz : m.hasStationB z = true) (hoz : o ≠ z)
    (hpop : popMin st.queue = some ((k, z), q')) :
    ∃ dz stc, searchLoop m o z (fuel + 1) st = .result (some dz) (some stc) ∧
      (∀ xs, isWalkB m o xs z = true → dz ≤ walkCost m o xs) ∧
      (∃ xs, isWalkB m o xs z = true ∧ walkCost m o xs = dz ∧
        xs.length = stc + 1) := by
  obtain ⟨dz, hdz, hmin⟩ := popped_min hwf hnn hinv hpop
  have heq := @searchLoop_succ_dest m o z fuel st (k, z) q' hpop rfl
  rcases hinv.qprev (k, z) (popMin_mem hpop) with h1 | h2
  · exact absurd h1.symm hoz
  · obtain ⟨p, hp⟩ := Option.isSome_iff_exists.mp h2
    obtain ⟨dp, dzz, w, hdp, hdzz, hew, hle⟩ := hinv.psound z p hp
    rw [hdz] at hdzz
    have hzz : dz = dzz := Option.some_inj.mp hdzz
    have hle2 : dp + w ≤ dz := by rw [hzz]; exact hle
    have hn1 : 1 ≤ m.stations.length := stations_length_pos hz
    obtain ⟨n', hn'⟩ : ∃ n', m.stations.length = n' + 1 :=
      ⟨m.stations.length - 1, by omega⟩
    by_cases hpo : p = o
    · rw [hpo] at hp hdp hew
      rw [hinv.dorigin] at hdp
      have hdp0 : 0 = dp := Option.some_inj.mp hdp
      obtain ⟨hw1, hw2⟩ := walk_single hew
      have hcs : countStops st.prev o m.stations.length z = some 0 := by
        rw [hn', countStops_succ, hp]
        dsimp only
        rw [if_pos rfl]
      have hwz : dz = w := by
        have h3 := hmin [z] hw1
        rw [hw2] at h3
        omega
      refine ⟨dz, 0, ?_, hmin, [z], hw1, by omega, rfl⟩
      rw [heq, hcs, hdz]
    · have hpvis : p ∈ st.visited := hinv.pvis z p hp
      have hplen : List.indexOf p st.visited < st.visited.length :=
        indexOf_lt_of_mem hpvis
      have hvlen : st.visited.length < m.stations.length :=
        visited_length_lt hinv.vnodup hinv.vmem hz hinv.znvis
      obtain ⟨kk, xs, hcount, hwalk, hlen, hcost⟩ :=
        countStops_chain hwf hnn hinv (List.indexOf p st.visited) p hpvis rfl
          hpo dp hdp n' (by omega)
      have hcs : countStops st.prev o m.stations.length z = some (kk + 1) := by
        rw [hn', countStops_succ, hp]
        dsimp only
        rw [if_neg hpo, hcount]
        rfl
      obtain ⟨hsn, hcn⟩ := walk_snoc xs o p z w hwalk hew
      have hcost2 : walkCost m o (xs ++ [z]) = dz := by
        have h3 := hmin (xs ++ [z]) hsn
        rw [hcn] at h3 ⊢
        omega
      refine ⟨dz, kk + 1, ?_, hmin, xs ++ [z], hsn, hcost2, ?_⟩
      · rw [heq, hcs, hdz]
      · rw [List.length_append, hlen]
        rfl

theorem queue_empty_unreachable {m : StationMap} {o z : String} {st : SState}
    (hwf : WF m) (hnn : NonnegW m) (hinv : Inv m o z st)
    (hempty : st.queue = []) :
    ∀ xs, isWalkB m o xs z = false := by
  intro xs
  cases hw : isWalkB m o xs z with
  | false => rfl
  | true =>
    obtain ⟨ky, y, hqmem, _⟩ := cover hwf hnn hinv xs z hw hinv.znvis
    rw [hempty] at hqmem
    cases hqmem

theorem searchLoop_correct {m : StationMap} {o z : String}
    (hwf : WF m) (hnn : NonnegW m) (hz : m.hasStationB z = true)
    (hoz : o ≠ z) :
    ∀ (fuel : Nat) (st : SState), Inv m o z st → phi m st < fuel →
      (∃ dz stc, searchLoop m o z fuel st = .result (some dz) (some stc) ∧
        (∀ xs, isWalkB m o xs z = true → dz ≤ walkCost m o xs) ∧
        (∃ xs, isWalkB m o xs z = true ∧ walkCost m o xs = dz ∧
          xs.length = stc + 1)) ∨
      (searchLoop m o z fuel st = .result none none ∧
        ∀ xs, isWalkB m o xs z = false) := by
  intro fuel
  induction fuel with
  | zero =>
    intro st _ hphi
    omega
  | succ f ih =>
    intro st hinv hphi
    cases hpq : popMin st.queue with
    | none =>
      right
      exact ⟨searchLoop_succ_empty hpq,
        queue_empty_unreachable hwf hnn hinv (popMin_eq_none.mp hpq)⟩
    | some pr =>
      obtain ⟨⟨k, u⟩, q'⟩ := pr
      by_cases hud : u = z
      · left
        rw [hud] at hpq
        exact searchLoop_dest hwf hnn hinv hz hoz hpq
      · have hstep := @searchLoop_succ_step m o z f st (k, u) q' hpq hud
        by_cases hv : u ∈ st.visited
        · obtain ⟨hinv2, hphi2⟩ := iter_revisit hinv hpq hv
          rw [hstep]
          exact ih (stepIter m u q' st) hinv2 (by omega)
        · obtain ⟨hinv2, hphi2⟩ := iter_visit hwf hnn hinv hpq hv hud
          rw [hstep]
          exact ih (stepIter m u q' st) hinv2 (by omega)

theorem sum_phi_nil_visited :
    ∀ l : List Station, (l.map (phiStation [])).sum =
      l.length + (l.map (fun s => s.routes.length)).sum := by
  intro l
  induction l with
  | nil => rfl
  | cons a t ih =>
    simp only [List.map_cons, List.sum_cons, List.length_cons]
    have ha : phiStation [] a = 1 + a.routes.length := by
      unfold phiStation
      rw [if_neg (List.not_mem_nil a.name)]
    omega

theorem phi_init_lt_fuelBound (m : StationMap) (o : String) :
    phi m (initState o) < m.fuelBound := by
  unfold phi initState StationMap.fuelBound StationMap.totalRoutes
  dsimp only
  have h := sum_phi_nil_visited m.stations
  simp only [List.length_singleton]
  omega

/-- C1: on a well-formed graph with non-negative weights, for distinct
connected stations the search returns a pair `(distance, stop_count)` where
`distance` is the minimum walk weight from origin to destination (it is a
lower bound of every directed walk's cost and is attained), and
`stop_count + 1` is the number of edges of a directed path attaining that
minimum. -/
theorem claim_C1_shortest_route_correct (m : StationMap) (o d : String)
    (hwf : WF m) (hnn : NonnegW m)
    (ho : m.hasStationB o = true) (hd : m.hasStationB d = true)
    (hod : o ≠ d) (hreach : ∃ xs, isWalkB m o xs d = true) :
    ∃ dz stc, m.findShortestRoute o d = .result (some dz) (some stc) ∧
      (∀ xs, isWalkB m o xs d = true → dz ≤ walkCost m o xs) ∧
      (∃ xs, isWalkB m o xs d = true ∧ walkCost m o xs = dz ∧
        xs.length = stc + 1) := by
  unfold StationMap.findShortestRoute findShortestRouteAux
  rw [if_neg (by rw [ho]; simp), if_neg (by rw [hd]; simp), if_neg hod]
  rcases searchLoop_correct hwf hnn hd hod m.fuelBound (initState o)
      (inv_init ho hod) (phi_init_lt_fuelBound m o) with
    ⟨dz, stc, heq, hmin, hwit⟩ | ⟨heq, hfalse⟩
  · exact ⟨dz, stc, heq, hmin, hwit⟩
  · obtain ⟨xs0, hxs0⟩ := hreach
    rw [hfalse xs0] at hxs0
    cases hxs0

/-- Witness for C1 on the spec's example `A→B(5), B→C(5), A→C(15)`:
the hypotheses hold and the theorem applies (the computed answer there is
`(10, 1)` via `B`). -/
theorem claim_C1_witness :
    ∃ dz stc, exMapC1.findShortestRoute "A" "C" =
        .result (some dz) (some stc) ∧
      (∀ xs, isWalkB exMapC1 "A" xs "C" = true →
        dz ≤ walkCost exMapC1 "A" xs) ∧
      (∃ xs, isWalkB exMapC1 "A" xs "C" = true ∧
        walkCost exMapC1 "A" xs = dz ∧ xs.length = stc + 1) :=
  claim_C1_shortest_route_correct exMapC1 "A" "C" (by decide) (by decide)
    (by decide) (by decide) (by decide) ⟨["C"], by decide⟩

/-- C2: on a well-formed graph with non-negative integer weights and both
queried names present, the search terminates: with the fuel bound
`2 + stations + routes` (and any larger fuel) the loop finishes and the call
returns a `(distance, stop_count)` result — the unreachable sentinel
included — and never errs or diverges. -/
theorem claim_C2_search_terminates (m : StationMap) (o d : String)
    (hwf : WF m) (hnn : NonnegW m)
    (ho : m.hasStationB o = true) (hd : m.hasStationB d = true) :
    (∃ dist stops, m.findShortestRoute o d = .result dist stops) ∧
    ∀ fuel, m.fuelBound ≤ fuel →
      ∃ dist stops, findShortestRouteAux m o d fuel = .result dist stops := by
  have haux : ∀ fuel, m.fuelBound ≤ fuel →
      ∃ dist stops, findShortestRouteAux m o d fuel = .result dist stops := by
    intro fuel hfuel
    unfold findShortestRouteAux
    rw [if_neg (by rw [ho]; simp), if_neg (by rw [hd]; simp)]
    by_cases hod : o = d
    · rw [if_pos hod]
      exact ⟨some 0, some 0, rfl⟩
    · rw [if_neg hod]
      rcases searchLoop_correct hwf hnn hd hod fuel (initState o)
          (inv_init ho hod)
          (by have := phi_init_lt_fuelBound m o; omega) with
        ⟨dz, stc, heq, _⟩ | ⟨heq, _⟩
      · exact ⟨some dz, some stc, heq⟩
      · exact ⟨none, none, heq⟩
  exact ⟨haux m.fuelBound (le_refl _), haux⟩

/-- Witness for C2 on the disconnected example map. -/
theorem claim_C2_witness :
    (∃ dist stops, exMapC3.findShortestRoute "A" "C" = .result dist stops) ∧
    ∀ fuel, exMapC3.fuelBound ≤ fuel →
      ∃ dist stops, findShortestRouteAux exMapC3 "A" "C" fuel =
        .result dist stops :=
  claim_C2_search_terminates exMapC3 "A" "C" (by decide) (by decide)
    (by decide) (by decide)

/-- C3: on a well-formed graph with non-negative weights, when both names are
present, distinct, and no directed walk joins them, `find_shortest_route`
returns the unreachable sentinel `(math.inf, None)` — and in particular does
not raise. -/
theorem claim_C3_unreachable_returns_sentinel (m : StationMap) (o d : String)
    (hwf : WF m) (hnn : NonnegW m)
    (ho : m.hasStationB o = true) (hd : m.hasStationB d = true)
    (hod : o ≠ d) (hun : ∀ xs, isWalkB m o xs d = false) :
    m.findShortestRoute o d = .result none none := by
  unfold StationMap.findShortestRoute findShortestRouteAux
  rw [if_neg (by rw [ho]; simp), if_neg (by rw [hd]; simp), if_neg hod]
  rcases searchLoop_correct hwf hnn hd hod m.fuelBound (initState o)
      (inv_init ho hod) (phi_init_lt_fuelBound m o) with
    ⟨dz, stc, heq, hmin, xs, hxs, _⟩ | ⟨heq, _⟩
  · rw [hun xs] at hxs
    cases hxs
  · exact heq

theorem unreachEx_fromB (xs : List String) :
    isWalkB exMapC3 "B" xs "C" = false := by
  cases xs with
  | nil => rfl
  | cons x t =>
    show ((exMapC3.edgeWeight "B" x).isSome &&
      isWalkB exMapC3 x t "C") = false
    have h : exMapC3.edgeWeight "B" x = none := rfl
    rw [h]
    rfl

theorem unreachEx (xs : List String) :
    isWalkB exMapC3 "A" xs "C" = false := by
  cases xs with
  | nil => rfl
  | cons x t =>
    by_cases hx : x = "B"
    · subst hx
      show ((exMapC3.edgeWeight "A" "B").isSome &&
        isWalkB exMapC3 "B" t "C") = false
      rw [unreachEx_fromB t]
      exact Bool.and_false _
    · show ((exMapC3.edgeWeight "A" x).isSome &&
        isWalkB exMapC3 x t "C") = false
      have h : exMapC3.edgeWeight "A" x = none := by
        show (List.find? (fun p => p.1 = x)
          [(("B" : String), (5 : Int))]).map Prod.snd = none
        rw [List.find?_cons]
        have hd : (decide ((("B" : String), (5 : Int)).1 = x)) = false := by
          simp only [decide_eq_false_iff_not]
          exact fun hc => hx hc.symm
        rw [hd]
        rfl
      rw [h]
      rfl

/-- Witness for C3: on the disconnected example, the query `A → C` returns
the sentinel; the unreachability hypothesis is discharged by `unreachEx`. -/
theorem claim_C3_witness :
    exMapC3.findShortestRoute "A" "C" = .result none none :=
  claim_C3_unreachable_returns_sentinel exMapC3 "A" "C" (by decide)
    (by decide) (by decide) (by decide) (by decide) unreachEx

theorem addStation_eq_of_has (m : StationMap) (x : String)
    (h : m.hasStationB x = true) : m.addStation x = m := by
  unfold StationMap.addStation
  simp [h]

theorem addStation_stations_of_not (m : StationMap) (x : String)
    (h : m.hasStationB x = false) :
    (m.addStation x).stations = m.stations ++ [⟨x, []⟩] := by
  unfold StationMap.addStation
  simp [h]

theorem edgeWeight_addStation (m : StationMap) (x a b : String) :
    (m.addStation x).edgeWeight a b = m.edgeWeight a b := by
  by_cases hx : m.hasStationB x = true
  · rw [addStation_eq_of_has m x hx]
  · have hx' : m.hasStationB x = false := by simpa using hx
    unfold StationMap.edgeWeight StationMap.findStation
    rw [addStation_stations_of_not m x hx', List.find?_append]
    cases h : m.stations.find? (fun s => s.name = a) with
    | some s => simp
    | none =>
      simp only [Option.none_or]
      by_cases hxa : x = a
      · subst hxa
        simp [List.find?_cons]
      · simp [List.find?_cons, hxa]

theorem hasRouteB_addStation (m : StationMap) (x a b : String) :
    (m.addStation x).hasRouteB a b = m.hasRouteB a b := by
  unfold StationMap.hasRouteB
  rw [edgeWeight_addStation]

theorem hasStation_addStation_self (m : StationMap) (x : String) :
    (m.addStation x).hasStationB x = true := by
  by_cases hx : m.hasStationB x = true
  · rw [addStation_eq_of_has m x hx]; exact hx
  · have hx' : m.hasStationB x = false := by simpa using hx
    unfold StationMap.hasStationB StationMap.findStation
    rw [addStation_stations_of_not m x hx', List.find?_append]
    cases h : m.stations.find? (fun s => s.name = x) <;> simp [List.find?_cons]

theorem hasStation_addStation_mono (m : StationMap) (x n : String)
    (h : m.hasStationB n = true) : (m.addStation x).hasStationB n = true := by
  by_cases hx : m.hasStationB x = true
  · rw [addStation_eq_of_has m x hx]; exact h
  · have hx' : m.hasStationB x = false := by simpa using hx
    unfold StationMap.hasStationB StationMap.findStation at h ⊢
    rw [addStation_stations_of_not m x hx', List.find?_append]
    cases hf : m.stations.find? (fun s => s.name = n) with
    | some s => simp
    | none => rw [hf] at h; simp at h

/-- `Station.add_route`'s successful insertion, as performed inside
`StationMap.add_route`: the post state of the no-duplicate branch. -/
def routesInserted (m1 : StationMap) (o d : String) (w : Int) : StationMap :=
  ⟨m1.stations.map (fun s =>
      if s.name = o then ⟨s.name, s.routes ++ [(d, w)]⟩ else s)⟩

theorem addRoute_eq (m : StationMap) (o d : String) (w : Int) :
    m.addRoute o d w =
      (if ((m.addStation o).addStation d).hasRouteB o d
        then (((m.addStation o).addStation d), some (o, d))
        else (routesInserted ((m.addStation o).addStation d) o d w, none)) := by
  unfold StationMap.addRoute routesInserted
  rfl

theorem hasStation_routesInserted (m1 : StationMap) (o d : String) (w : Int)
    (n : String) :
    (routesInserted m1 o d w).hasStationB n = m1.hasStationB n := by
  unfold routesInserted StationMap.hasStationB StationMap.findStation
  simp only [List.find?_map]
  have hp : ((fun s => decide (s.name = n)) ∘
      (fun s => if s.name = o then Station.mk s.name (s.routes ++ [(d, w)]) else s)) =
      (fun s => decide (s.name = n)) := by
    funext s
    by_cases hso : s.name = o <;> simp [hso]
  rw [hp]
  cases m1.stations.find? (fun s => decide (s.name = n)) <;> simp

theorem destsRegistered_empty : DestsRegistered StationMap.empty := by
  intro s hs
  cases hs

theorem destsRegistered_addStation (m : StationMap) (x : String)
    (h : DestsRegistered m) : DestsRegistered (m.addStation x) := by
  by_cases hx : m.hasStationB x = true
  · rw [addStation_eq_of_has m x hx]; exact h
  · have hx' : m.hasStationB x = false := by simpa using hx
    intro s hs p hp
    have hs' : s ∈ m.stations ++ [⟨x, []⟩] := by
      rw [← addStation_stations_of_not m x hx']; exact hs
    rcases List.mem_append.mp hs' with hold | hnew
    · exact hasStation_addStation_mono m x p.1 (h s hold p hp)
    · simp only [List.mem_singleton] at hnew
      subst hnew
      cases hp

theorem destsRegistered_addRoute (m : StationMap) (o d : String) (w : Int)
    (h : DestsRegistered m) : DestsRegistered (m.addRoute o d w).1 := by
  have h1 : DestsRegistered ((m.addStation o).addStation d) :=
    destsRegistered_addStation _ _ (destsRegistered_addStation _ _ h)
  have hd : ((m.addStation o).addStation d).hasStationB d = true :=
    hasStation_addStation_self _ _
  rw [addRoute_eq]
  split
  · exact h1
  · intro s hs p hp
    rw [hasStation_routesInserted]
    simp only [routesInserted, List.mem_map] at hs
    obtain ⟨s0, hs0, rfl⟩ := hs
    by_cases hso : s0.name = o
    · rw [if_pos hso] at hp
      simp only at hp
      rcases List.mem_append.mp hp with hold | hnew
      · exact h1 s0 hs0 p hold
      · simp only [List.mem_singleton] at hnew
        subst hnew
        exact hd
    · rw [if_neg hso] at hp
      exact h1 s0 hs0 p hp

theorem destsRegistered_foldl (l : List (String × String × Int)) :
    ∀ (m : StationMap), DestsRegistered m →
      DestsRegistered (l.foldl (fun m e => (m.addRoute e.1 e.2.1 e.2.2).1) m) := by
  induction l with
  | nil => intro m h; exact h
  | cons e t ih =>
    intro m h
    exact ih _ (destsRegistered_addRoute m e.1 e.2.1 e.2.2 h)

/-- C7: in every map built by `add_route` calls from the empty map, each route
destination is itself a registered station, and every single `add_route` call
(successful or not) preserves this invariant. -/
theorem claim_C7_destinations_registered :
    DestsRegistered StationMap.empty ∧
    (∀ (m : StationMap) (o d : String) (w : Int),
      DestsRegistered m → DestsRegistered (m.addRoute o d w).1) ∧
    (∀ l : List (String × String × Int), DestsRegistered (buildMap l)) :=
  ⟨destsRegistered_empty,
   fun m o d w h => destsRegistered_addRoute m o d w h,
   fun l => destsRegistered_foldl l StationMap.empty destsRegistered_empty⟩

/-- Witness for C7: the invariant, instantiated on a concretely built map. -/
theorem claim_C7_witness :
    DestsRegistered ((buildMap [("A", "B", 5)]).addRoute "B" "C" 2).1 :=
  claim_C7_destinations_registered.2.1 (buildMap [("A", "B", 5)]) "B" "C" 2
    (by decide)

/-- C5: `add_route` for an ordered pair that already has an edge raises
`DuplicateRouteError` whatever the new weight is, while adding the reverse
pair is unaffected by the existing forward edge and succeeds whenever the
reverse edge itself is absent. -/
theorem claim_C5_duplicate_edge_rejected (m : StationMap) (o d : String)
    (w w2 : Int) (h : m.hasRouteB o d = true) :
    (m.addRoute o d w).2 = some (o, d) ∧
    (m.hasRouteB d o = false → (m.addRoute d o w2).2 = none) := by
  constructor
  · have h1 : ((m.addStation o).addStation d).hasRouteB o d = true := by
      rw [hasRouteB_addStation, hasRouteB_addStation]; exact h
    rw [addRoute_eq]
    simp [h1]
  · intro h2
    have h1 : ((m.addStation d).addStation o).hasRouteB d o = false := by
      rw [hasRouteB_addStation, hasRouteB_addStation]; exact h2
    rw [addRoute_eq]
    simp [h1]

/-- Witness for C5: with the edge `A → B` present, re-adding `A → B` with a
different weight errs and adding `B → A` succeeds. -/
theorem claim_C5_witness :
    ((buildMap [("A", "B", 5)]).addRoute "A" "B" 9).2 = some ("A", "B") ∧
    ((buildMap [("A", "B", 5)]).hasRouteB "B" "A" = false →
      ((buildMap [("A", "B", 5)]).addRoute "B" "A" 7).2 = none) :=
  claim_C5_duplicate_edge_rejected (buildMap [("A", "B", 5)]) "A" "B" 9 7
    (by decide)

/-- C10: when `add_route` raises `DuplicateRouteError` on a well-formed map
(route destinations registered, as construction guarantees), the map is left
exactly as it was: the duplicate edge implies both endpoints were already
registered, so the `_add_station` calls are no-ops and the error is raised
before any insertion. -/
theorem claim_C10_duplicate_leaves_map_unchanged (m : StationMap)
    (o d : String) (w : Int) (hreg : DestsRegistered m)
    (h : m.hasRouteB o d = true) :
    m.addRoute o d w = (m, some (o, d)) := by
  have ho : m.hasStationB o = true := by
    unfold StationMap.hasRouteB StationMap.edgeWeight at h
    unfold StationMap.hasStationB
    cases hf : m.findStation o with
    | none => rw [hf] at h; simp at h
    | some s => rfl
  have hd : m.hasStationB d = true := by
    unfold StationMap.hasRouteB StationMap.edgeWeight at h
    cases hf : m.findStation o with
    | none => rw [hf] at h; simp at h
    | some s =>
      rw [hf] at h
      simp only [Option.some_bind, Option.isSome_map] at h
      cases hr : s.routes.find? (fun p => p.1 = d) with
      | none => rw [hr] at h; simp at h
      | some p =>
        have hps : p ∈ s.routes := List.mem_of_find?_eq_some hr
        have hpd : p.1 = d := by
          have := List.find?_some hr
          simpa using this
        have hsmem : s ∈ m.stations := List.mem_of_find?_eq_some hf
        have := hreg s hsmem p hps
        rwa [hpd] at this
  have e1 : m.addStation o = m := addStation_eq_of_has m o ho
  have e2 : m.addStation d = m := addStation_eq_of_has m d hd
  rw [addRoute_eq, e1, e2]
  simp [h]

/-- Witness for C10: re-adding `A → B` leaves the concrete map untouched. -/
theorem claim_C10_witness :
    (buildMap [("A", "B", 5), ("B", "C", 2)]).addRoute "A" "B" 9 =
      (buildMap [("A", "B", 5), ("B", "C", 2)], some ("A", "B")) :=
  claim_C10_duplicate_leaves_map_unchanged
    (buildMap [("A", "B", 5), ("B", "C", 2)]) "A" "B" 9 (by decide) (by decide)

/-- C9: a query never mutates the graph.  In state-passing form the station
map that `find_shortest_route` threads through the whole call — whether it
returns a result, the unreachable sentinel, or a
`StationDoesNotExistError` — comes back exactly equal to the input map, and
the outcome agrees with the plain function. -/
theorem claim_C9_query_does_not_mutate (m : StationMap) (o d : String) :
    (findShortestRouteSt m o d).1 = m ∧
    (findShortestRouteSt m o d).2 = m.findShortestRoute o d := by
  unfold findShortestRouteSt StationMap.findShortestRoute findShortestRouteAux
  by_cases h1 : m.hasStationB o = false
  · simp [h1]
  · by_cases h2 : m.hasStationB d = false
    · simp [h1, h2]
    · by_cases h3 : o = d
      · simp [h1, h2, h3]
      · simp [h1, h2, h3, searchLoopSt_eq]

end TrainRoutes
